import Mathlib

/-!
Shallow embedding of the Merkle Mountain Range accumulator from
`src/mmr/merkle_mountain_ranges.rs` (bitmap-driven implementation) and
`src/mmr/naive_merkle_mountain_ranges.rs` (naive implementation), together
with proofs about the claims of the specification.

Conventions of the embedding:
* `GoldilocksField` is abstracted to a type `F` with decidable equality and a
  zero element; a `HashOut<GoldilocksField>` is four field elements
  (`NUM_HASH_OUT_ELTS = 4`).
* The Poseidon primitive is an external crate (plonky2), abstracted by the two
  parameters `hashNoPad : List F → HashOut F` (the `hash_no_pad` branch of
  `hash_or_noop`, reached only for more than four inputs) and
  `twoToOne : HashOut F → HashOut F → HashOut F` (`PoseidonHash::two_to_one`).
  `hash_or_noop` itself is translated faithfully: for at most four inputs it is
  `HashOut::from_partial`, i.e. the inputs padded with zeros, with no hashing.
* `usize`/`u64` values are modelled as `Nat`; the sizes relevant to the claims
  stay far below `2^32`, so the wrap-around of machine integers is never
  reached (where an overflow or underflow IS reachable it is modelled
  explicitly, see `get_peaks`).
* A Rust panic (a failed `assert!`, an out-of-bounds index, an overflowing
  shift) is modelled as `none` of an `Option` result.
-/

/-- `HashOut<GoldilocksField>`: four field elements. -/
structure HashOut (F : Type) where
  e0 : F
  e1 : F
  e2 : F
  e3 : F
deriving DecidableEq

/-- The four field elements of a digest, in order (`h.elements` in the source,
used by the `flat_map` in `bagging_the_peaks` and in `verify`). -/
def HashOut.toList {F : Type} (h : HashOut F) : List F :=
  [h.e0, h.e1, h.e2, h.e3]

/-- `PoseidonHash::hash_or_noop`: at most `NUM_HASH_OUT_ELTS = 4` inputs are
returned as a digest padded with zeros (`HashOut::from_partial`), otherwise the
input list is hashed with `hash_no_pad`. -/
def hash_or_noop {F : Type} [Zero F] (hashNoPad : List F → HashOut F)
    (inputs : List F) : HashOut F :=
  if inputs.length ≤ 4 then
    ⟨inputs.getD 0 0, inputs.getD 1 0, inputs.getD 2 0, inputs.getD 3 0⟩
  else hashNoPad inputs

/-- Number of significant bits of `n` (so `bitlen 0 = 0`, `bitlen 5 = 3`).
`usize::MAX >> n.leading_zeros()` in the source equals `2 ^ bitlen n - 1`.
Written with explicit fuel (first argument) to keep the recursion structural;
`bitlen` supplies fuel that always suffices. -/
def bitlenAux : Nat → Nat → Nat
  | 0, _ => 0
  | fuel + 1, n => if n = 0 then 0 else bitlenAux fuel (n / 2) + 1

/-- Number of significant bits of `n`. -/
def bitlen (n : Nat) : Nat :=
  bitlenAux n n

/-- The loop of `get_heights_bitmap_for_mmr_size`: walk the candidate subtree
sizes `2^k - 1` downwards, greedily subtracting each size that still fits and
recording a bit for it. Returns `(peaks, updated_mmr_size)`. -/
def heights_bitmap_loop (subtree_size updated_mmr_size peaks : Nat) : Nat × Nat :=
  if h : subtree_size = 0 then (peaks, updated_mmr_size)
  else if subtree_size ≤ updated_mmr_size then
    heights_bitmap_loop (subtree_size / 2) (updated_mmr_size - subtree_size) (2 * peaks + 1)
  else
    heights_bitmap_loop (subtree_size / 2) updated_mmr_size (2 * peaks)
termination_by subtree_size
decreasing_by
  all_goals exact Nat.div_lt_self (Nat.pos_of_ne_zero h) one_lt_two

/-- `get_heights_bitmap_for_mmr_size`: bitmap of the heights at which the MMR
of `mmr_size` elements has a peak, together with the number of leftover
elements. `all_peaks_set = usize::MAX >> mmr_size.leading_zeros()` is
`2 ^ bitlen mmr_size - 1`. -/
def get_heights_bitmap_for_mmr_size (mmr_size : Nat) : Nat × Nat :=
  if mmr_size = 0 then (0, 0)
  else heights_bitmap_loop (2 ^ bitlen mmr_size - 1) mmr_size 0

/-- The MMR accumulator: the append-only flat list of digests. -/
structure MMR (F : Type) where
  elements : List (HashOut F)
deriving DecidableEq

/-- `MMR::new`. -/
def MMR.new (F : Type) : MMR F :=
  ⟨[]⟩

/-- The cascading-merge loop of `MMR::add_leaf`: while the low bit of `peaks`
is set, merge the previous peak (at backward offset `2^height - 1` from
`current_pos`) with the running hash and append the result. -/
def add_leaf_loop {F : Type} [Zero F] (twoToOne : HashOut F → HashOut F → HashOut F)
    (peaks height current_pos : Nat) (next_hash : HashOut F)
    (elements : List (HashOut F)) : List (HashOut F) :=
  if h : peaks = 0 then elements
  else if peaks % 2 = 1 then
    let prev_peak_index := current_pos - (2 ^ height - 1)
    let prev_peak := elements.getD prev_peak_index ⟨0, 0, 0, 0⟩
    let nh := twoToOne prev_peak next_hash
    add_leaf_loop twoToOne (peaks / 2) (height + 1) (current_pos + 1) nh (elements ++ [nh])
  else elements
termination_by peaks
decreasing_by
  exact Nat.div_lt_self (Nat.pos_of_ne_zero h) one_lt_two

/-- `MMR::add_leaf`. -/
def MMR.add_leaf {F : Type} [Zero F] (hashNoPad : List F → HashOut F)
    (twoToOne : HashOut F → HashOut F → HashOut F) (m : MMR F) (leaf : F) : MMR F :=
  if m.elements.isEmpty then ⟨[hash_or_noop hashNoPad [leaf]]⟩
  else
    let next_hash := hash_or_noop hashNoPad [leaf]
    let peaks := (get_heights_bitmap_for_mmr_size m.elements.length).1
    ⟨add_leaf_loop twoToOne peaks 1 m.elements.length next_hash (m.elements ++ [next_hash])⟩

/-- The loop of `MMR::get_peaks`: greedily fit mountain sizes into the element
count, recording the digest at each cumulative boundary. -/
def get_peaks_loop {F : Type} [Zero F] (elements : List (HashOut F))
    (max_tree_size current_index peak_pos : Nat)
    (peaks : List (HashOut F)) : List (HashOut F) :=
  if h : max_tree_size = 0 then peaks
  else if max_tree_size ≤ current_index then
    get_peaks_loop elements (max_tree_size / 2) (current_index - max_tree_size)
      (peak_pos + max_tree_size)
      (peaks ++ [elements.getD (peak_pos + max_tree_size - 1) ⟨0, 0, 0, 0⟩])
  else
    get_peaks_loop elements (max_tree_size / 2) current_index peak_pos peaks
termination_by max_tree_size
decreasing_by
  all_goals exact Nat.div_lt_self (Nat.pos_of_ne_zero h) one_lt_two

/-- `MMR::get_peaks`. For an empty MMR the source computes
`u32::MAX >> 0u32.leading_zeros()`, i.e. a right shift by 32 on a `u32`, which
is an arithmetic overflow (a panic in debug builds): modelled as `none`. -/
def MMR.get_peaks {F : Type} [Zero F] (m : MMR F) : Option (List (HashOut F)) :=
  if m.elements.length = 0 then none
  else some (get_peaks_loop m.elements (2 ^ bitlen m.elements.length - 1)
    m.elements.length 0 [])

/-- `MMR::bagging_the_peaks`: hash the concatenation of the field elements of
all peaks with `hash_or_noop`. -/
def MMR.bagging_the_peaks {F : Type} [Zero F] (hashNoPad : List F → HashOut F)
    (m : MMR F) : Option (HashOut F) :=
  (m.get_peaks).map fun peaks => hash_or_noop hashNoPad (peaks.flatMap HashOut.toList)

/-- `MMR::add_right_elm`: look up the right sibling at offset `2^(height+1)-1`.
Returns `none` for the usize underflow of `mmr.elements.len() - 1` on an empty
element list (a panic), `some none` when the loop should stop
(`intree = false`), and `some (some (sibling, new_curr_index))` otherwise. -/
def add_right_elm {F : Type} [Zero F] (elements : List (HashOut F))
    (curr_index height : Nat) : Option (Option (HashOut F × Nat)) :=
  if elements.length = 0 then none
  else
    let next_elm_index := curr_index + (2 ^ (height + 1) - 1)
    if next_elm_index < elements.length - 1 then
      some (some (elements.getD next_elm_index ⟨0, 0, 0, 0⟩, next_elm_index + 1))
    else some none

/-- The `while intree` loop of `MMR::get_subtree_proof_elm`. The Rust loop has
no structural measure (it terminates because the height grows past every bound)
so the embedding carries explicit fuel; `get_subtree_proof_elm` supplies fuel
that is proved sufficient for every input appearing in the theorems below.
`none` models a panic (out-of-bounds element access) or exhausted fuel. -/
def subtree_proof_loop {F : Type} [Zero F] (elements : List (HashOut F)) :
    Nat → Nat → Nat → List (HashOut F × Bool) → Option (List (HashOut F × Bool))
  | 0, _, _, _ => none
  | fuel + 1, curr_index, height, acc =>
    if 2 ^ (height + 1) - 1 ≤ curr_index then
      let prev_elm_index := curr_index - (2 ^ (height + 1) - 1)
      if (get_heights_bitmap_for_mmr_size prev_elm_index).2 = height then
        match elements[prev_elm_index]? with
        | none => none
        | some h =>
          subtree_proof_loop elements fuel (curr_index + 1) (height + 1) (acc ++ [(h, true)])
      else
        match add_right_elm elements curr_index height with
        | none => none
        | some none => some acc
        | some (some (sib, next)) =>
          subtree_proof_loop elements fuel next (height + 1) (acc ++ [(sib, false)])
    else
      match add_right_elm elements curr_index height with
      | none => none
      | some none => some acc
      | some (some (sib, next)) =>
        subtree_proof_loop elements fuel next (height + 1) (acc ++ [(sib, false)])

/-- `MMR::get_subtree_proof_elm`: the Merkle proof inside the subtree of the
leaf at `mmr_index`. -/
def MMR.get_subtree_proof_elm {F : Type} [Zero F] (m : MMR F) (mmr_index : Nat) :
    Option (List (HashOut F × Bool)) :=
  subtree_proof_loop m.elements (mmr_index + m.elements.length + 2) mmr_index 0 []

/-- `MMR_proof`: the proof material returned by `MMR::get_proof`. -/
structure MMR_proof (F : Type) where
  mmr_size : Nat
  merkle_proof : List (HashOut F × Bool)
  peaks : List (HashOut F)
deriving DecidableEq

/-- `MMR::get_proof`. -/
def MMR.get_proof {F : Type} [Zero F] (m : MMR F) (mmr_index : Nat) :
    Option (MMR_proof F) :=
  match m.get_subtree_proof_elm mmr_index, m.get_peaks with
  | some path, some peaks => some ⟨m.elements.length, path, peaks⟩
  | _, _ => none

/-- The hash recomputed by the first phase of `MMR_proof::verify`: fold the
Merkle path over the leaf hash, merging each sibling on the recorded side. -/
def MMR_proof.recomputed_hash {F : Type} [Zero F] (hashNoPad : List F → HashOut F)
    (twoToOne : HashOut F → HashOut F → HashOut F) (p : MMR_proof F) (leaf : F) :
    HashOut F :=
  p.merkle_proof.foldl
    (fun next_hash sib => if sib.2 then twoToOne sib.1 next_hash else twoToOne next_hash sib.1)
    (hash_or_noop hashNoPad [leaf])

/-- `MMR_proof::verify`. The source runs `assert!(self.peaks.contains(&next_hash))`,
which panics (modelled as `none`) whenever the recomputed hash is not among the
peaks; otherwise it returns whether the bagged peaks equal the claimed root. -/
def MMR_proof.verify {F : Type} [DecidableEq F] [Zero F]
    (hashNoPad : List F → HashOut F) (twoToOne : HashOut F → HashOut F → HashOut F)
    (p : MMR_proof F) (leaf : F) (root : HashOut F) : Option Bool :=
  if p.recomputed_hash hashNoPad twoToOne leaf ∈ p.peaks then
    some (decide (hash_or_noop hashNoPad (p.peaks.flatMap HashOut.toList) = root))
  else none

/-- The loop of `get_mmr_index`: every set bit of the normal index at position
`height - 1` contributes a subtree of `2^height - 1` elements. -/
def get_mmr_index_loop (index height res : Nat) : Nat :=
  if h : index = 0 then res
  else if index % 2 = 1 then
    get_mmr_index_loop (index / 2) (height + 1) (res + (2 ^ height - 1))
  else
    get_mmr_index_loop (index / 2) (height + 1) res
termination_by index
decreasing_by
  all_goals exact Nat.div_lt_self (Nat.pos_of_ne_zero h) one_lt_two

/-- `get_mmr_index`: flat MMR index of the leaf with the given normal index. -/
def get_mmr_index (leaf_normal_index : Nat) : Nat :=
  get_mmr_index_loop leaf_normal_index 1 0

/-- `get_nr_elms` from the naive implementation: `2^(ilog2 nr_leaves) * 2 - 1`.
(`ilog2` panics on 0 in Rust; `get_standard_index` guards that case.) -/
def get_nr_elms (nr_leaves : Nat) : Nat :=
  2 ^ (bitlen nr_leaves - 1) * 2 - 1

/-- `get_standard_index` from the naive implementation: normal index of the
leaf at the given flat index inside a mountain of `nr_leaves` leaves. For
`nr_leaves ≤ 1` the source either panics in `ilog2(0)` or recurses to that
panic; modelled as `none`. -/
def get_standard_index (leaf_index nr_leaves : Nat) : Option Nat :=
  if nr_leaves = 4 ∨ nr_leaves = 2 then
    if leaf_index = 0 ∨ leaf_index = 1 then some leaf_index
    else some (leaf_index - 1)
  else if h : nr_leaves ≤ 1 then none
  else
    let nr_elms := get_nr_elms nr_leaves
    if nr_elms / 2 ≤ leaf_index then
      (get_standard_index (leaf_index - (nr_leaves - 1)) (nr_leaves / 2)).map
        (fun r => 1 + (nr_leaves - 2) / 2 + r)
    else
      get_standard_index leaf_index (nr_leaves / 2)
termination_by nr_leaves
decreasing_by
  all_goals exact Nat.div_lt_self (by omega) one_lt_two

/-- The naive implementation's accumulator (`naive_MMR`). -/
structure naive_MMR (F : Type) where
  elements : List (HashOut F)
  heights : List Nat
  nr_leaves : Nat
  max_height : Nat
  peaks : List (HashOut F)
deriving DecidableEq

/-- `naive_MMR::new`: note that `peaks` is initialised to the EMPTY list, the
first leaf is not recorded as a peak. -/
def naive_MMR.new {F : Type} [Zero F] (hashNoPad : List F → HashOut F) (leaf : F) :
    naive_MMR F :=
  let leaf_hash := hash_or_noop hashNoPad [leaf]
  ⟨[leaf_hash], [0], 1, 0, []⟩

/-- The root field of `naive_MMR::bagging_the_peaks`: hash of the concatenated
field elements of all recorded peaks. -/
def naive_MMR.bagging_the_peaks {F : Type} [Zero F] (hashNoPad : List F → HashOut F)
    (m : naive_MMR F) : HashOut F :=
  hash_or_noop hashNoPad (m.peaks.flatMap HashOut.toList)

/-- An accumulator built by `n` calls of `MMR::add_leaf` on the empty MMR. -/
def buildMMR {F : Type} [Zero F] (hashNoPad : List F → HashOut F)
    (twoToOne : HashOut F → HashOut F → HashOut F) (leaves : List F) : MMR F :=
  leaves.foldl (MMR.add_leaf hashNoPad twoToOne) (MMR.new F)

/-- A concrete instantiation of the abstract `hash_no_pad` over `F := Nat`,
used for witnesses and counterexamples. -/
def natHashNoPad (l : List Nat) : HashOut Nat :=
  ⟨100 + l.length, l.foldl (fun a b => 2 * a + 3 * b + 1) 0, 0, 0⟩

/-- A concrete instantiation of the abstract `two_to_one` over `F := Nat`,
used for witnesses and counterexamples. -/
def natTwoToOne (a b : HashOut Nat) : HashOut Nat :=
  ⟨1 + a.e0 + 2 * b.e0, a.e1 + 3 * b.e1 + a.e2, a.e3 + 5 * b.e2, 2 + b.e3⟩

/-- Number of set bits of `n` (the spec's `popcount`). -/
def popcount (n : Nat) : Nat :=
  if h : n = 0 then 0 else n % 2 + popcount (n / 2)
termination_by n
decreasing_by
  exact Nat.div_lt_self (Nat.pos_of_ne_zero h) one_lt_two

/-- Number of trailing one bits of `n`. -/
def trailingOnes (n : Nat) : Nat :=
  if h : n % 2 = 1 then trailingOnes (n / 2) + 1 else 0
termination_by n
decreasing_by
  exact Nat.div_lt_self (by omega) one_lt_two


/-! ### Bridge definitions: the canonical mountain decomposition

The following definitions do not mirror individual source functions; they name
the canonical shape of a Merkle Mountain Range (its complete mountains), which
the theorems below prove the source functions create and consume. -/

/-- Digest of the complete mountain of height `h` over the leaf block `b`
(of length `2^h`): leaves are hashed with `hash_or_noop`, inner nodes merge
left and right subtree digests with `two_to_one`. -/
def mdigest {F : Type} [Zero F] (hashNoPad : List F → HashOut F)
    (twoToOne : HashOut F → HashOut F → HashOut F) : Nat → List F → HashOut F
  | 0, b => hash_or_noop hashNoPad [b.headD 0]
  | h + 1, b =>
    twoToOne (mdigest hashNoPad twoToOne h (b.take (2 ^ h)))
      (mdigest hashNoPad twoToOne h (b.drop (2 ^ h)))

/-- Post-order flat layout of the complete mountain of height `h` over the
leaf block `b`: left subtree, right subtree, root. -/
def mflat {F : Type} [Zero F] (hashNoPad : List F → HashOut F)
    (twoToOne : HashOut F → HashOut F → HashOut F) : Nat → List F → List (HashOut F)
  | 0, b => [hash_or_noop hashNoPad [b.headD 0]]
  | h + 1, b =>
    mflat hashNoPad twoToOne h (b.take (2 ^ h)) ++
      mflat hashNoPad twoToOne h (b.drop (2 ^ h)) ++
      [mdigest hashNoPad twoToOne (h + 1) b]

/-- Heights of the elements of `mflat h b`, in post-order. -/
def mheights : Nat → List Nat
  | 0 => [0]
  | h + 1 => mheights h ++ mheights h ++ [h + 1]

/-- Merkle path of leaf number `k` inside the mountain of height `h` over
block `b`: per level, the sibling digest and whether it sits on the left. -/
def mpath {F : Type} [Zero F] (hashNoPad : List F → HashOut F)
    (twoToOne : HashOut F → HashOut F → HashOut F) :
    Nat → Nat → List F → List (HashOut F × Bool)
  | 0, _, _ => []
  | h + 1, k, b =>
    if k < 2 ^ h then
      mpath hashNoPad twoToOne h k (b.take (2 ^ h)) ++
        [(mdigest hashNoPad twoToOne h (b.drop (2 ^ h)), false)]
    else
      mpath hashNoPad twoToOne h (k - 2 ^ h) (b.drop (2 ^ h)) ++
        [(mdigest hashNoPad twoToOne h (b.take (2 ^ h)), true)]

/-- Flat position, inside the post-order layout of a mountain of height `H`,
of the height-`j` ancestor of leaf number `k`. -/
def nodePos : Nat → Nat → Nat → Nat
  | 0, _, _ => 0
  | H + 1, k, j =>
    if j = H + 1 then 2 ^ (H + 2) - 2
    else if k < 2 ^ H then nodePos H k j
    else (2 ^ (H + 1) - 1) + nodePos H (k - 2 ^ H) j

/-- One step of the abstract binary counter: push a mountain onto the state
(smallest mountain first), merging while the lowest height collides. -/
def carry {F : Type} : List (Nat × List F) → Nat × List F → List (Nat × List F)
  | [], m => [m]
  | (h, b) :: rest, (h2, b2) =>
    if h = h2 then carry rest (h + 1, b ++ b2) else (h2, b2) :: (h, b) :: rest

/-- The canonical mountain decomposition (smallest mountain first) of a leaf
sequence. -/
def counterState (F : Type) (ls : List F) : List (Nat × List F) :=
  ls.foldl (fun st x => carry st (0, [x])) []

/-- Leaf count represented by a state. -/
def stateLeaves {F : Type} (st : List (Nat × List F)) : Nat :=
  (st.map fun hb => 2 ^ hb.1).sum

/-- Flat element layout of a tallest-first mountain list. -/
def mountainsFlat {F : Type} [Zero F] (hashNoPad : List F → HashOut F)
    (twoToOne : HashOut F → HashOut F → HashOut F)
    (R : List (Nat × List F)) : List (HashOut F) :=
  R.flatMap fun hb => mflat hashNoPad twoToOne hb.1 hb.2

/-- Element heights of a tallest-first mountain list. -/
def mountainsHeights {F : Type} (R : List (Nat × List F)) : List Nat :=
  R.flatMap fun hb => mheights hb.1

/-- Peak digests of a tallest-first mountain list. -/
def mountainsPeaks {F : Type} [Zero F] (hashNoPad : List F → HashOut F)
    (twoToOne : HashOut F → HashOut F → HashOut F)
    (R : List (Nat × List F)) : List (HashOut F) :=
  R.map fun hb => mdigest hashNoPad twoToOne hb.1 hb.2

/-- Well-formed tallest-first mountain list: full blocks and strictly
decreasing heights. -/
def DecMountains {F : Type} : List (Nat × List F) → Prop
  | [] => True
  | (h, b) :: rest => b.length = 2 ^ h ∧ (∀ p ∈ rest, p.1 < h) ∧ DecMountains rest

/-- Well-formed smallest-first counter state: full blocks and strictly
increasing heights. -/
def StateWF {F : Type} : List (Nat × List F) → Prop
  | [] => True
  | (h, b) :: rest => b.length = 2 ^ h ∧ (∀ p ∈ rest, h < p.1) ∧ StateWF rest

/-- Elements of the accumulator described by a smallest-first state. -/
def stateLayout {F : Type} [Zero F] (hashNoPad : List F → HashOut F)
    (twoToOne : HashOut F → HashOut F → HashOut F)
    (st : List (Nat × List F)) : List (HashOut F) :=
  mountainsFlat hashNoPad twoToOne st.reverse

/-- The leaves recorded by a smallest-first state, in insertion order. -/
def stateLeafList {F : Type} (st : List (Nat × List F)) : List F :=
  st.reverse.flatMap fun hb => hb.2

/-! ## Theorems -/

/-- C9: when `get_peaks` returns exactly one peak, `bagging_the_peaks` returns
exactly that peak digest: `hash_or_noop` on the peak's four field elements is
`HashOut::from_partial`, the identity — no extra hashing is applied. -/
theorem C9_single_peak_bagging {F : Type} [DecidableEq F] [Zero F]
    (hashNoPad : List F → HashOut F) (m : MMR F) (p : HashOut F)
    (h : m.get_peaks = some [p]) :
    m.bagging_the_peaks hashNoPad = some p := by
  cases p
  simp [MMR.bagging_the_peaks, h, hash_or_noop, HashOut.toList]

/-- Witness for C9 at a concrete single-peak accumulator. -/
theorem C9_witness :
    (MMR.mk [(⟨5, 0, 0, 0⟩ : HashOut Nat)]).get_peaks = some [⟨5, 0, 0, 0⟩] ∧
    (MMR.mk [(⟨5, 0, 0, 0⟩ : HashOut Nat)]).bagging_the_peaks natHashNoPad =
      some ⟨5, 0, 0, 0⟩ := by
  have hp : (MMR.mk [(⟨5, 0, 0, 0⟩ : HashOut Nat)]).get_peaks = some [⟨5, 0, 0, 0⟩] := by
    simp [MMR.get_peaks, get_peaks_loop, bitlen, bitlenAux]
  exact ⟨hp, C9_single_peak_bagging natHashNoPad _ _ hp⟩

/-- C10: `MMR_proof::verify` never reads `mmr_size`: proofs agreeing on
`merkle_proof` and `peaks` verify identically for every leaf and root,
whatever their `mmr_size` fields are. -/
theorem C10_verify_ignores_mmr_size {F : Type} [DecidableEq F] [Zero F]
    (hashNoPad : List F → HashOut F) (twoToOne : HashOut F → HashOut F → HashOut F)
    (p₁ p₂ : MMR_proof F) (leaf : F) (root : HashOut F)
    (hpath : p₁.merkle_proof = p₂.merkle_proof) (hpeaks : p₁.peaks = p₂.peaks) :
    p₁.verify hashNoPad twoToOne leaf root = p₂.verify hashNoPad twoToOne leaf root := by
  obtain ⟨s₁, mp₁, pk₁⟩ := p₁
  obtain ⟨s₂, mp₂, pk₂⟩ := p₂
  simp only [MMR_proof.merkle_proof] at hpath
  simp only [MMR_proof.peaks] at hpeaks
  subst hpath; subst hpeaks
  rfl

/-- Witness for C10: two proofs differing only in `mmr_size` (0 versus 37). -/
theorem C10_witness :
    MMR_proof.verify natHashNoPad natTwoToOne ⟨0, [], [⟨0, 0, 0, 0⟩]⟩ 0 ⟨0, 0, 0, 0⟩ =
      MMR_proof.verify natHashNoPad natTwoToOne ⟨37, [], [⟨0, 0, 0, 0⟩]⟩ 0 ⟨0, 0, 0, 0⟩ :=
  C10_verify_ignores_mmr_size natHashNoPad natTwoToOne _ _ _ _ rfl rfl

/-- C1 counterexample: on a proof whose recomputed subtree hash is not among
its peaks (here: an empty peaks list), `verify` runs
`assert!(self.peaks.contains(&next_hash))` and panics — it does not return a
boolean, contradicting the claim as stated. -/
theorem C1_counterexample :
    MMR_proof.verify natHashNoPad natTwoToOne ⟨0, [], []⟩ 0 ⟨0, 0, 0, 0⟩ = none := by
  simp [MMR_proof.verify]

/-- C1 amended: `verify` returns a boolean whenever the hash recomputed from
the `merkle_proof` path is contained in the proof's peaks list (namely whether
the bagged peaks equal the claimed root); when the recomputed hash is NOT
contained in the peaks list, `verify` panics on its `assert!` rather than
returning `false`. -/
theorem C1_verify_amended {F : Type} [DecidableEq F] [Zero F]
    (hashNoPad : List F → HashOut F) (twoToOne : HashOut F → HashOut F → HashOut F)
    (p : MMR_proof F) (leaf : F) (root : HashOut F) :
    (p.recomputed_hash hashNoPad twoToOne leaf ∈ p.peaks →
      p.verify hashNoPad twoToOne leaf root =
        some (decide (hash_or_noop hashNoPad (p.peaks.flatMap HashOut.toList) = root))) ∧
    (p.recomputed_hash hashNoPad twoToOne leaf ∉ p.peaks →
      p.verify hashNoPad twoToOne leaf root = none) := by
  constructor <;> intro h <;> simp [MMR_proof.verify, h]

/-- Witness for C1 amended: a concrete proof on which the containment check
succeeds (single peak equal to the recomputed leaf hash) and a concrete proof
on which it fails. -/
theorem C1_witness :
    MMR_proof.verify natHashNoPad natTwoToOne ⟨0, [], [⟨0, 0, 0, 0⟩]⟩ 0 ⟨0, 0, 0, 0⟩ =
      some (decide (hash_or_noop natHashNoPad
        (([(⟨0, 0, 0, 0⟩ : HashOut Nat)]).flatMap HashOut.toList) = ⟨0, 0, 0, 0⟩)) ∧
    MMR_proof.verify natHashNoPad natTwoToOne ⟨0, [], []⟩ 5 ⟨0, 0, 0, 0⟩ = none :=
  ⟨(C1_verify_amended natHashNoPad natTwoToOne ⟨0, [], [⟨0, 0, 0, 0⟩]⟩ 0 ⟨0, 0, 0, 0⟩).1
      (by simp [MMR_proof.recomputed_hash, hash_or_noop]),
   (C1_verify_amended natHashNoPad natTwoToOne ⟨0, [], []⟩ 5 ⟨0, 0, 0, 0⟩).2
      (by simp)⟩

/-- C7 (code bug, failing input n = 1): with a single inserted leaf of value 1
both implementations record the same `elements`, but `naive_MMR::new`
initialises `peaks` to the empty list — contradicting the field's own
documentation ("all peaks in the MMR; if it is a perfect Merkle tree, this is
1 elements") — so the naive root is the zero digest while the bitmap
implementation's root is the leaf hash `⟨1,0,0,0⟩`: the two roots differ. -/
theorem C7_single_leaf_roots_differ :
    (naive_MMR.new natHashNoPad 1).elements =
      (buildMMR natHashNoPad natTwoToOne [1]).elements ∧
    (naive_MMR.new natHashNoPad 1).peaks = [] ∧
    (naive_MMR.new natHashNoPad 1).bagging_the_peaks natHashNoPad = ⟨0, 0, 0, 0⟩ ∧
    (buildMMR natHashNoPad natTwoToOne [1]).bagging_the_peaks natHashNoPad =
      some ⟨1, 0, 0, 0⟩ ∧
    some ((naive_MMR.new natHashNoPad 1).bagging_the_peaks natHashNoPad) ≠
      (buildMMR natHashNoPad natTwoToOne [1]).bagging_the_peaks natHashNoPad := by
  refine ⟨?_, rfl, ?_, ?_, ?_⟩
  · simp [naive_MMR.new, buildMMR, MMR.new, MMR.add_leaf, hash_or_noop]
  · simp [naive_MMR.new, naive_MMR.bagging_the_peaks, hash_or_noop]
  · simp [buildMMR, MMR.new, MMR.add_leaf, hash_or_noop, MMR.bagging_the_peaks,
      MMR.get_peaks, get_peaks_loop, bitlen, bitlenAux, HashOut.toList]
  · simp [naive_MMR.new, naive_MMR.bagging_the_peaks, hash_or_noop, buildMMR, MMR.new,
      MMR.add_leaf, MMR.bagging_the_peaks, MMR.get_peaks, get_peaks_loop, bitlen,
      bitlenAux, HashOut.toList]

/-- C8 counterexample: on a single-leaf accumulator, requesting a proof for
flat index 5 (out of bounds) makes `get_subtree_proof_elm` read
`elements[prev_elm_index]` out of bounds — a panic, not a typed error,
contradicting the claim as stated. -/
theorem C8_counterexample :
    (buildMMR natHashNoPad natTwoToOne [5]).get_proof 5 = none := by
  simp [buildMMR, MMR.new, MMR.add_leaf, MMR.get_proof, MMR.get_subtree_proof_elm,
    subtree_proof_loop, add_right_elm, get_heights_bitmap_for_mmr_size,
    heights_bitmap_loop, bitlen, bitlenAux, hash_or_noop]

/-- C8 amended: a membership-proof request for a flat index that does not
address a recorded leaf is never surfaced as a typed error: depending on the
index, `get_proof` either panics on an out-of-bounds element access (flat
index 5 on a single-leaf accumulator) or silently returns a proof object (flat
index 3 on the same accumulator yields an empty path and the peak list). -/
theorem C8_get_proof_amended :
    (buildMMR natHashNoPad natTwoToOne [5]).get_proof 5 = none ∧
    (buildMMR natHashNoPad natTwoToOne [5]).get_proof 3 =
      some ⟨1, [], [⟨5, 0, 0, 0⟩]⟩ := by
  constructor
  · simp [buildMMR, MMR.new, MMR.add_leaf, MMR.get_proof, MMR.get_subtree_proof_elm,
      subtree_proof_loop, add_right_elm, get_heights_bitmap_for_mmr_size,
      heights_bitmap_loop, bitlen, bitlenAux, hash_or_noop]
  · simp [buildMMR, MMR.new, MMR.add_leaf, MMR.get_proof, MMR.get_subtree_proof_elm,
      subtree_proof_loop, add_right_elm, get_heights_bitmap_for_mmr_size,
      heights_bitmap_loop, bitlen, bitlenAux, hash_or_noop, MMR.get_peaks, get_peaks_loop]

/-! ### Arithmetic helper lemmas -/

theorem bitlenAux_zero (fuel : Nat) : bitlenAux fuel 0 = 0 := by
  cases fuel <;> rfl

theorem bitlenAux_spec (fuel : Nat) : ∀ n, n ≤ fuel → 1 ≤ n →
    1 ≤ bitlenAux fuel n ∧ 2 ^ (bitlenAux fuel n - 1) ≤ n ∧ n < 2 ^ bitlenAux fuel n := by
  induction fuel with
  | zero => intro n hn h1; omega
  | succ fuel ih =>
    intro n hn h1
    have hne : ¬ n = 0 := by omega
    simp only [bitlenAux, hne, if_false]
    rcases Nat.lt_or_ge n 2 with h2 | h2
    · have : n = 1 := by omega
      subst this
      simp [bitlenAux_zero]
    · have hhalf1 : 1 ≤ n / 2 := by omega
      have hhalfle : n / 2 ≤ fuel := by omega
      obtain ⟨hb1, hlow, hhigh⟩ := ih (n / 2) hhalfle hhalf1
      have hsplit : 2 ^ bitlenAux fuel (n / 2) = 2 * 2 ^ (bitlenAux fuel (n / 2) - 1) := by
        obtain ⟨b, hb⟩ : ∃ b, bitlenAux fuel (n / 2) = b + 1 :=
          ⟨bitlenAux fuel (n / 2) - 1, by omega⟩
        rw [hb, Nat.add_sub_cancel, pow_succ, Nat.mul_comm]
      have hsplit2 : 2 ^ (bitlenAux fuel (n / 2) + 1) = 2 * 2 ^ bitlenAux fuel (n / 2) := by
        rw [pow_succ]; ring
      refine ⟨by omega, ?_, by omega⟩
      rw [Nat.add_sub_cancel]
      omega

theorem bitlen_spec (n : Nat) (h1 : 1 ≤ n) :
    1 ≤ bitlen n ∧ 2 ^ (bitlen n - 1) ≤ n ∧ n < 2 ^ bitlen n :=
  bitlenAux_spec n n le_rfl h1

theorem bitlen_two_pow (a : Nat) : bitlen (2 ^ a) = a + 1 := by
  obtain ⟨h1, hlow, hhigh⟩ := bitlen_spec (2 ^ a) Nat.one_le_two_pow
  have hpos : 1 ≤ 2 ^ a := Nat.one_le_two_pow
  have hle : bitlen (2 ^ a) - 1 ≤ a := by
    by_contra hc
    have hc2 : a + 1 ≤ bitlen (2 ^ a) - 1 := by omega
    have h3 : 2 ^ (a + 1) ≤ 2 ^ (bitlen (2 ^ a) - 1) :=
      Nat.pow_le_pow_right (by norm_num) hc2
    have h4 : 2 ^ (a + 1) = 2 * 2 ^ a := by rw [pow_succ]; ring
    omega
  have hlt : a < bitlen (2 ^ a) := by
    by_contra hc
    have hc2 : bitlen (2 ^ a) ≤ a := by omega
    have h3 : 2 ^ bitlen (2 ^ a) ≤ 2 ^ a := Nat.pow_le_pow_right (by norm_num) hc2
    omega
  omega

theorem popcount_zero : popcount 0 = 0 := by
  rw [popcount]
  simp

theorem popcount_unfold (n : Nat) : popcount n = n % 2 + popcount (n / 2) := by
  by_cases h : n = 0
  · subst h; simp [popcount_zero]
  · rw [popcount]; simp [h]

theorem popcount_le (n : Nat) : popcount n ≤ n := by
  induction n using Nat.strong_induction_on with
  | _ n ih =>
    by_cases h : n = 0
    · subst h; simp [popcount_zero]
    · rw [popcount_unfold]
      have := ih (n / 2) (by omega)
      omega

theorem popcount_pos (n : Nat) : 1 ≤ n → 1 ≤ popcount n := by
  induction n using Nat.strong_induction_on with
  | _ n ih =>
    intro h
    rw [popcount_unfold]
    rcases Nat.lt_or_ge n 2 with h2 | h2
    · have h3 : n = 1 := by omega
      subst h3
      simp [popcount_zero]
    · have := ih (n / 2) (by omega) (by omega)
      omega

theorem popcount_one : popcount 1 = 1 := by
  rw [popcount_unfold]
  simp [popcount_zero]

theorem popcount_two_pow_add (k : Nat) : ∀ m, m < 2 ^ k →
    popcount (2 ^ k + m) = 1 + popcount m := by
  induction k with
  | zero =>
    intro m hm
    have hm0 : m = 0 := by omega
    subst hm0
    simp [popcount_one, popcount_zero]
  | succ k ih =>
    intro m hm
    have hpow : 2 ^ (k + 1) = 2 * 2 ^ k := by rw [pow_succ]; ring
    rw [popcount_unfold, popcount_unfold m]
    have hmod : (2 ^ (k + 1) + m) % 2 = m % 2 := by omega
    have hdiv : (2 ^ (k + 1) + m) / 2 = 2 ^ k + m / 2 := by omega
    have hm2 : m / 2 < 2 ^ k := by omega
    rw [hmod, hdiv, ih (m / 2) hm2]
    omega

theorem trailingOnes_even (n : Nat) (h : n % 2 = 0) : trailingOnes n = 0 := by
  rw [trailingOnes]; simp [h]

theorem trailingOnes_odd (n : Nat) (h : n % 2 = 1) :
    trailingOnes n = trailingOnes (n / 2) + 1 := by
  rw [trailingOnes]; simp [h]

theorem popcount_succ_add_trailingOnes (n : Nat) :
    popcount (n + 1) + trailingOnes n = popcount n + 1 := by
  induction n using Nat.strong_induction_on with
  | _ n ih =>
    rcases Nat.even_or_odd n with he | ho
    · have h2 : n % 2 = 0 := Nat.even_iff.mp he
      rw [trailingOnes_even n h2, popcount_unfold (n + 1), popcount_unfold n]
      have hmod : (n + 1) % 2 = 1 := by omega
      have hdiv : (n + 1) / 2 = n / 2 := by omega
      rw [hmod, hdiv]
      omega
    · have h2 : n % 2 = 1 := Nat.odd_iff.mp ho
      rw [trailingOnes_odd n h2, popcount_unfold (n + 1), popcount_unfold n]
      have hmod : (n + 1) % 2 = 0 := by omega
      have hdiv : (n + 1) / 2 = n / 2 + 1 := by omega
      rw [hmod, hdiv, h2]
      have := ih (n / 2) (by omega)
      omega

/-! ### The peaks bitmap of a canonical MMR size -/

theorem heights_bitmap_loop_eval (K : Nat) : ∀ n acc, n < 2 ^ K →
    heights_bitmap_loop (2 ^ K - 1) (2 * n - popcount n) acc = (acc * 2 ^ K + n, 0) := by
  induction K with
  | zero =>
    intro n acc hn
    have hn0 : n = 0 := by omega
    subst hn0
    rw [heights_bitmap_loop]
    simp [popcount_zero]
  | succ K ih =>
    intro n acc hn
    have hpow : 2 ^ (K + 1) = 2 * 2 ^ K := by rw [pow_succ]; ring
    have hpow1 : 1 ≤ 2 ^ K := Nat.one_le_two_pow
    have hpc := popcount_le n
    have hne : ¬(2 ^ (K + 1) - 1 = 0) := by omega
    have hdiv : (2 ^ (K + 1) - 1) / 2 = 2 ^ K - 1 := by omega
    rw [heights_bitmap_loop, dif_neg hne]
    rcases Nat.lt_or_ge n (2 ^ K) with hlt | hge
    · have hskip : ¬(2 ^ (K + 1) - 1 ≤ 2 * n - popcount n) := by omega
      rw [if_neg hskip, hdiv, ih n (2 * acc) hlt]
      have h5 : acc * 2 ^ (K + 1) = 2 * (acc * 2 ^ K) := by rw [hpow]; ring
      have h6 : 2 * acc * 2 ^ K = 2 * (acc * 2 ^ K) := by ring
      simp only [Prod.mk.injEq]
      exact ⟨by omega, trivial⟩
    · have hpc2 : popcount n = 1 + popcount (n - 2 ^ K) := by
        have h2 := popcount_two_pow_add K (n - 2 ^ K) (by omega)
        rw [show 2 ^ K + (n - 2 ^ K) = n by omega] at h2
        exact h2
      have hpcle : popcount (n - 2 ^ K) ≤ n - 2 ^ K := popcount_le (n - 2 ^ K)
      have htake : 2 ^ (K + 1) - 1 ≤ 2 * n - popcount n := by omega
      rw [if_pos htake, hdiv]
      have hsub : 2 * n - popcount n - (2 ^ (K + 1) - 1) =
          2 * (n - 2 ^ K) - popcount (n - 2 ^ K) := by omega
      rw [hsub, ih (n - 2 ^ K) (2 * acc + 1) (by omega)]
      have h5 : acc * 2 ^ (K + 1) = 2 * (acc * 2 ^ K) := by rw [hpow]; ring
      have h6 : (2 * acc + 1) * 2 ^ K = 2 * (acc * 2 ^ K) + 2 ^ K := by ring
      simp only [Prod.mk.injEq]
      exact ⟨by omega, trivial⟩

/-- The central bitmap lemma: an accumulator holding `n ≥ 1` leaves has
`2n - popcount n` elements, and on that size the source's bitmap function
returns exactly `n` (one peak bit per set bit of the leaf count) with
remainder 0. -/
theorem get_heights_bitmap_canonical (n : Nat) (h : 1 ≤ n) :
    get_heights_bitmap_for_mmr_size (2 * n - popcount n) = (n, 0) := by
  have hpc := popcount_le n
  have hpcp := popcount_pos n h
  have hsize : 1 ≤ 2 * n - popcount n := by omega
  obtain ⟨hb1, hlow, hhigh⟩ := bitlen_spec (2 * n - popcount n) hsize
  rw [get_heights_bitmap_for_mmr_size, if_neg (by omega)]
  have hn : n < 2 ^ bitlen (2 * n - popcount n) := by omega
  simpa using heights_bitmap_loop_eval (bitlen (2 * n - popcount n)) n 0 hn

/-! ### Element counts (C4) -/

theorem add_leaf_loop_length {F : Type} [Zero F]
    (twoToOne : HashOut F → HashOut F → HashOut F) (peaks : Nat) :
    ∀ height current_pos (nh : HashOut F) elements,
    (add_leaf_loop twoToOne peaks height current_pos nh elements).length =
      elements.length + trailingOnes peaks := by
  induction peaks using Nat.strong_induction_on with
  | _ peaks ih =>
    intro height current_pos nh elements
    rw [add_leaf_loop]
    by_cases h0 : peaks = 0
    · subst h0
      simp [trailingOnes_even 0 (by norm_num)]
    · rw [dif_neg h0]
      by_cases h1 : peaks % 2 = 1
      · rw [if_pos h1]
        have hrec := ih (peaks / 2) (by omega) (height + 1) (current_pos + 1)
        rw [trailingOnes_odd peaks h1]
        simp only [hrec, List.length_append, List.length_cons, List.length_nil]
        omega
      · rw [if_neg h1, trailingOnes_even peaks (by omega)]
        omega

/-- Auxiliary step: adding a leaf to an accumulator of `n` leaves (hence
`2n - popcount n` elements) yields `2(n+1) - popcount (n+1)` elements. -/
theorem add_leaf_length {F : Type} [Zero F] (hashNoPad : List F → HashOut F)
    (twoToOne : HashOut F → HashOut F → HashOut F) (m : MMR F) (x : F) (n : Nat)
    (hlen : m.elements.length = 2 * n - popcount n) :
    (m.add_leaf hashNoPad twoToOne x).elements.length =
      2 * (n + 1) - popcount (n + 1) := by
  have hpc := popcount_le n
  have hsucc := popcount_succ_add_trailingOnes n
  have hpcp1 := popcount_pos (n + 1) (by omega)
  by_cases hn : n = 0
  · subst hn
    have h0 : m.elements.length = 0 := by simpa [popcount_zero] using hlen
    have hemp : m.elements.isEmpty = true := by
      cases hm : m.elements with
      | nil => rfl
      | cons a t => rw [hm] at h0; simp at h0
    rw [MMR.add_leaf, if_pos hemp]
    simp [popcount_one]
  · have hn1 : 1 ≤ n := by omega
    have hlenpos : 1 ≤ m.elements.length := by omega
    have hemp : ¬(m.elements.isEmpty = true) := by
      cases hm : m.elements with
      | nil => rw [hm] at hlenpos; simp at hlenpos
      | cons a t => simp
    rw [MMR.add_leaf, if_neg hemp]
    simp only []
    rw [hlen, get_heights_bitmap_canonical n hn1]
    simp only [add_leaf_loop_length, List.length_append, List.length_cons, List.length_nil]
    omega

/-- Element count of a built accumulator (shared helper). -/
theorem buildMMR_length {F : Type} [Zero F] (hashNoPad : List F → HashOut F)
    (twoToOne : HashOut F → HashOut F → HashOut F) (leaves : List F) :
    (buildMMR hashNoPad twoToOne leaves).elements.length =
      2 * leaves.length - popcount leaves.length := by
  induction leaves using List.reverseRecOn with
  | nil => simp [buildMMR, MMR.new, popcount_zero]
  | append_singleton ls x ih =>
    rw [buildMMR, List.foldl_append, List.foldl_cons, List.foldl_nil]
    rw [buildMMR] at ih
    rw [List.length_append, List.length_cons, List.length_nil]
    exact add_leaf_length hashNoPad twoToOne _ x ls.length ih

/-! ### Peak counts (C5) -/

theorem get_peaks_loop_length {F : Type} [Zero F] (elements : List (HashOut F))
    (K : Nat) : ∀ n pos acc, n < 2 ^ K →
    (get_peaks_loop elements (2 ^ K - 1) (2 * n - popcount n) pos acc).length =
      acc.length + popcount n := by
  induction K with
  | zero =>
    intro n pos acc hn
    have hn0 : n = 0 := by omega
    subst hn0
    rw [get_peaks_loop]
    simp [popcount_zero]
  | succ K ih =>
    intro n pos acc hn
    have hpow : 2 ^ (K + 1) = 2 * 2 ^ K := by rw [pow_succ]; ring
    have hpow1 : 1 ≤ 2 ^ K := Nat.one_le_two_pow
    have hpc := popcount_le n
    have hne : ¬(2 ^ (K + 1) - 1 = 0) := by omega
    have hdiv : (2 ^ (K + 1) - 1) / 2 = 2 ^ K - 1 := by omega
    rw [get_peaks_loop, dif_neg hne]
    rcases Nat.lt_or_ge n (2 ^ K) with hlt | hge
    · have hskip : ¬(2 ^ (K + 1) - 1 ≤ 2 * n - popcount n) := by omega
      rw [if_neg hskip, hdiv, ih n pos acc hlt]
    · have hpc2 : popcount n = 1 + popcount (n - 2 ^ K) := by
        have h2 := popcount_two_pow_add K (n - 2 ^ K) (by omega)
        rw [show 2 ^ K + (n - 2 ^ K) = n by omega] at h2
        exact h2
      have hpcle : popcount (n - 2 ^ K) ≤ n - 2 ^ K := popcount_le (n - 2 ^ K)
      have htake : 2 ^ (K + 1) - 1 ≤ 2 * n - popcount n := by omega
      rw [if_pos htake, hdiv]
      have hsub : 2 * n - popcount n - (2 ^ (K + 1) - 1) =
          2 * (n - 2 ^ K) - popcount (n - 2 ^ K) := by omega
      rw [hsub, ih (n - 2 ^ K) _ _ (by omega)]
      simp only [List.length_append, List.length_cons, List.length_nil]
      omega

/-- C5 counterexample: after 0 insertions `get_peaks` does not return the
empty peak sequence — the source computes `u32::MAX >> 32`, an overflowing
shift, i.e. a panic in debug builds. -/
theorem C5_counterexample :
    (buildMMR natHashNoPad natTwoToOne ([] : List Nat)).get_peaks = none := rfl

/-- C5 amended: for every n ≥ 1, after n insertions `get_peaks` returns
exactly `popcount n` digests; for n = 0 the shift
`u32::MAX >> mmr_len.leading_zeros()` overflows (a debug-build panic) instead
of returning the empty sequence. -/
theorem C5_peaks_count_amended {F : Type} [Zero F] (hashNoPad : List F → HashOut F)
    (twoToOne : HashOut F → HashOut F → HashOut F) (leaves : List F)
    (h : leaves ≠ []) :
    ∃ pks, (buildMMR hashNoPad twoToOne leaves).get_peaks = some pks ∧
      pks.length = popcount leaves.length := by
  set n := leaves.length with hn
  have hn1 : 1 ≤ n := by
    cases leaves with
    | nil => exact absurd rfl h
    | cons a t => simp [hn]
  have hlen := buildMMR_length hashNoPad twoToOne leaves
  have hpc := popcount_le n
  have hpcp := popcount_pos n hn1
  have hsize : 1 ≤ 2 * n - popcount n := by omega
  obtain ⟨hb1, hlow, hhigh⟩ := bitlen_spec (2 * n - popcount n) hsize
  rw [MMR.get_peaks, hlen, ← hn]
  rw [if_neg (by omega)]
  refine ⟨_, rfl, ?_⟩
  have hnK : n < 2 ^ bitlen (2 * n - popcount n) := by omega
  simpa using get_peaks_loop_length (buildMMR hashNoPad twoToOne leaves).elements
    (bitlen (2 * n - popcount n)) n 0 [] hnK

/-! ### Index mapping round trip (C6) -/

theorem get_mmr_index_loop_spec (index : Nat) : ∀ height res,
    get_mmr_index_loop index height res + popcount index = res + 2 ^ height * index := by
  induction index using Nat.strong_induction_on with
  | _ index ih =>
    intro height res
    rw [get_mmr_index_loop]
    by_cases h0 : index = 0
    · subst h0; simp [popcount_zero]
    · rw [dif_neg h0]
      have hpow : 2 ^ (height + 1) = 2 * 2 ^ height := by rw [pow_succ]; ring
      have h2p : 1 ≤ 2 ^ height := Nat.one_le_two_pow
      rw [popcount_unfold index]
      by_cases h1 : index % 2 = 1
      · rw [if_pos h1]
        have hrec := ih (index / 2) (by omega) (height + 1) (res + (2 ^ height - 1))
        have hexp : 2 ^ (height + 1) * (index / 2) = 2 * (2 ^ height * (index / 2)) := by
          rw [hpow]; ring
        have hsplit : 2 ^ height * index = 2 ^ height * (2 * (index / 2) + 1) := by
          congr 1; omega
        have hexp2 : 2 ^ height * (2 * (index / 2) + 1) =
            2 * (2 ^ height * (index / 2)) + 2 ^ height := by ring
        omega
      · rw [if_neg h1]
        have hrec := ih (index / 2) (by omega) (height + 1) res
        have hexp : 2 ^ (height + 1) * (index / 2) = 2 * (2 ^ height * (index / 2)) := by
          rw [hpow]; ring
        have hsplit : 2 ^ height * index = 2 ^ height * (2 * (index / 2)) := by
          congr 1; omega
        have hexp2 : 2 ^ height * (2 * (index / 2)) = 2 * (2 ^ height * (index / 2)) := by
          ring
        omega

/-- `get_mmr_index` in closed form: the flat index of the `k`-th inserted leaf
is `2k - popcount k`. -/
theorem get_mmr_index_eq (k : Nat) : get_mmr_index k = 2 * k - popcount k := by
  have h := get_mmr_index_loop_spec k 1 0
  have hpc := popcount_le k
  rw [pow_one] at h
  rw [get_mmr_index]
  omega

/-- C6: the two index mappings are mutually inverse: for every mountain size
`m = 2^j` (`j ≥ 1`) and every normal index `k < m`,
`get_standard_index (get_mmr_index k) m` recovers `k`. -/
theorem C6_round_trip (j : Nat) : ∀ k, 1 ≤ j → k < 2 ^ j →
    get_standard_index (get_mmr_index k) (2 ^ j) = some k := by
  induction j using Nat.strong_induction_on with
  | _ j ih =>
    intro k hj hk
    rcases Nat.lt_or_ge j 3 with hj3 | hj3
    · -- base cases j = 1, j = 2
      interval_cases j
      · interval_cases k <;>
          simp [get_mmr_index, get_mmr_index_loop, get_standard_index]
      · interval_cases k <;>
          simp [get_mmr_index, get_mmr_index_loop, get_standard_index]
    · -- j ≥ 3, so m = 2^j ≥ 8
      have hpow : 2 ^ j = 2 * 2 ^ (j - 1) := by
        rw [show j = (j - 1) + 1 by omega, pow_succ]
        simp [Nat.mul_comm]
      have hpow1 : 1 ≤ 2 ^ (j - 1) := Nat.one_le_two_pow
      have hm8 : 8 ≤ 2 ^ j := by
        calc (8 : Nat) = 2 ^ 3 := by norm_num
        _ ≤ 2 ^ j := Nat.pow_le_pow_right (by norm_num) hj3
      have hnotbase : ¬(2 ^ j = 4 ∨ 2 ^ j = 2) := by omega
      have hnot1 : ¬(2 ^ j ≤ 1) := by omega
      have hnrelms : get_nr_elms (2 ^ j) = 2 ^ j * 2 - 1 := by
        rw [get_nr_elms, bitlen_two_pow, Nat.add_sub_cancel]
      have hhalfm : 2 ^ j / 2 = 2 ^ (j - 1) := by omega
      rw [get_mmr_index_eq, get_standard_index, if_neg hnotbase, dif_neg hnot1]
      simp only [hnrelms, hhalfm]
      have hhalf : (2 ^ j * 2 - 1) / 2 = 2 ^ j - 1 := by omega
      rw [hhalf]
      have hpck := popcount_le k
      rcases Nat.lt_or_ge k (2 ^ (j - 1)) with hkl | hkr
      · -- left half: recurse with the same k
        have hpcpos : k = 0 ∨ 1 ≤ popcount k := by
          rcases Nat.eq_zero_or_pos k with h | h
          · exact Or.inl h
          · exact Or.inr (popcount_pos k h)
        have hskip : ¬(2 ^ j - 1 ≤ 2 * k - popcount k) := by
          rcases hpcpos with h | h
          · subst h; simp [popcount_zero]; omega
          · omega
        rw [if_neg hskip, ← get_mmr_index_eq]
        exact ih (j - 1) (by omega) k (by omega) hkl
      · -- right half: recurse with k - 2^(j-1)
        have hpc2 : popcount k = 1 + popcount (k - 2 ^ (j - 1)) := by
          have h2 := popcount_two_pow_add (j - 1) (k - 2 ^ (j - 1)) (by omega)
          rw [show 2 ^ (j - 1) + (k - 2 ^ (j - 1)) = k by omega] at h2
          exact h2
        have hpcle := popcount_le (k - 2 ^ (j - 1))
        have htake : 2 ^ j - 1 ≤ 2 * k - popcount k := by omega
        rw [if_pos htake]
        have hsub : 2 * k - popcount k - (2 ^ j - 1) =
            2 * (k - 2 ^ (j - 1)) - popcount (k - 2 ^ (j - 1)) := by omega
        rw [hsub, ← get_mmr_index_eq]
        rw [ih (j - 1) (by omega) (k - 2 ^ (j - 1)) (by omega) (by omega)]
        simp only [Option.map_some']
        congr 1
        omega

/-- Witness for C6 at the concrete mountain size 8 and normal index 5
(`get_mmr_index 5 = 8`, and `get_standard_index 8 8 = 5`). -/
theorem C6_witness : get_standard_index (get_mmr_index 5) (2 ^ 3) = some 5 :=
  C6_round_trip 3 5 (by norm_num) (by norm_num)

/-- C4: after `n` calls of `add_leaf` on the empty MMR, `elements.len()` is
`2*n - popcount n`, for every leaf sequence. -/
theorem C4_elements_length {F : Type} [Zero F] (hashNoPad : List F → HashOut F)
    (twoToOne : HashOut F → HashOut F → HashOut F) (leaves : List F) :
    (buildMMR hashNoPad twoToOne leaves).elements.length =
      2 * leaves.length - popcount leaves.length :=
  buildMMR_length hashNoPad twoToOne leaves

/-- Witness for C5 amended: three insertions yield `popcount 3 = 2` peaks. -/
theorem C5_witness :
    ∃ pks, (buildMMR natHashNoPad natTwoToOne [10, 11, 12]).get_peaks = some pks ∧
      pks.length = popcount 3 :=
  C5_peaks_count_amended natHashNoPad natTwoToOne [10, 11, 12] (by simp)

/-! ### Mountain shape lemmas -/

theorem mheights_length (h : Nat) : (mheights h).length = 2 ^ (h + 1) - 1 := by
  induction h with
  | zero => rfl
  | succ h ih =>
    have hpow : 2 ^ (h + 2) = 2 * 2 ^ (h + 1) := by rw [pow_succ]; ring
    have h1 : 1 ≤ 2 ^ (h + 1) := Nat.one_le_two_pow
    simp only [mheights, List.length_append, List.length_cons, List.length_nil, ih]
    omega

theorem mflat_length {F : Type} [Zero F] (hashNoPad : List F → HashOut F)
    (twoToOne : HashOut F → HashOut F → HashOut F) (h : Nat) :
    ∀ b, (mflat hashNoPad twoToOne h b).length = 2 ^ (h + 1) - 1 := by
  induction h with
  | zero => intro b; rfl
  | succ h ih =>
    intro b
    have hpow : 2 ^ (h + 2) = 2 * 2 ^ (h + 1) := by rw [pow_succ]; ring
    have h1 : 1 ≤ 2 ^ (h + 1) := Nat.one_le_two_pow
    simp only [mflat, List.length_append, List.length_cons, List.length_nil, ih]
    omega

theorem mflat_getD_last {F : Type} [Zero F] (hashNoPad : List F → HashOut F)
    (twoToOne : HashOut F → HashOut F → HashOut F) (h : Nat) (b : List F)
    (d : HashOut F) :
    (mflat hashNoPad twoToOne h b).getD (2 ^ (h + 1) - 2) d =
      mdigest hashNoPad twoToOne h b := by
  cases h with
  | zero => rfl
  | succ h =>
    have hpow : 2 ^ (h + 2) = 2 * 2 ^ (h + 1) := by rw [pow_succ]; ring
    have h1 : 1 ≤ 2 ^ (h + 1) := Nat.one_le_two_pow
    rw [mflat]
    rw [List.append_assoc]
    rw [List.getD_append_right _ _ d _ (by rw [mflat_length]; omega)]
    rw [mflat_length]
    rw [List.getD_append_right _ _ d _ (by rw [mflat_length]; omega)]
    rw [mflat_length]
    have : 2 ^ (h + 1 + 1) - 2 - (2 ^ (h + 1) - 1) - (2 ^ (h + 1) - 1) = 0 := by omega
    rw [this]
    rfl

theorem mheights_getD_last (h : Nat) :
    (mheights h).getD (2 ^ (h + 1) - 2) 0 = h := by
  cases h with
  | zero => rfl
  | succ h =>
    have hpow : 2 ^ (h + 2) = 2 * 2 ^ (h + 1) := by rw [pow_succ]; ring
    have h1 : 1 ≤ 2 ^ (h + 1) := Nat.one_le_two_pow
    rw [mheights, List.append_assoc]
    rw [List.getD_append_right _ _ 0 _ (by rw [mheights_length]; omega)]
    rw [mheights_length]
    rw [List.getD_append_right _ _ 0 _ (by rw [mheights_length]; omega)]
    rw [mheights_length]
    have : 2 ^ (h + 1 + 1) - 2 - (2 ^ (h + 1) - 1) - (2 ^ (h + 1) - 1) = 0 := by omega
    rw [this]
    rfl

/-- The heights list of a taller mountain extends that of a smaller one: the
height of a flat position does not depend on which mountain contains it. -/
theorem mheights_stable (h h' : Nat) (r : Nat) (hle : h ≤ h')
    (hr : r < 2 ^ (h + 1) - 1) :
    (mheights h').getD r 0 = (mheights h).getD r 0 := by
  induction h' with
  | zero =>
    have : h = 0 := by omega
    subst this
    rfl
  | succ h' ih =>
    rcases Nat.eq_or_lt_of_le hle with he | hlt
    · subst he; rfl
    · have hle' : h ≤ h' := by omega
      have hpow : 2 ^ (h + 1) ≤ 2 ^ (h' + 1) :=
        Nat.pow_le_pow_right (by norm_num) (by omega)
      rw [mheights, List.append_assoc]
      rw [List.getD_append _ _ 0 _ (by rw [mheights_length]; omega)]
      exact ih hle'

/-! ### Counter state lemmas -/

theorem stateLeaves_nil {F : Type} : stateLeaves (F := F) [] = 0 := rfl

theorem stateLeaves_cons {F : Type} (h : Nat) (b : List F) (rest : List (Nat × List F)) :
    stateLeaves ((h, b) :: rest) = 2 ^ h + stateLeaves rest := by
  simp [stateLeaves]

theorem carry_stateLeaves {F : Type} (st : List (Nat × List F)) :
    ∀ h2 (b2 : List F), stateLeaves (carry st (h2, b2)) = stateLeaves st + 2 ^ h2 := by
  induction st with
  | nil => intro h2 b2; simp [carry, stateLeaves]
  | cons hb rest ih =>
    intro h2 b2
    obtain ⟨h, b⟩ := hb
    rw [carry]
    by_cases he : h = h2
    · rw [if_pos he, ih, stateLeaves_cons]
      subst he
      have : 2 ^ (h + 1) = 2 ^ h + 2 ^ h := by rw [pow_succ]; ring
      omega
    · rw [if_neg he, stateLeaves_cons, stateLeaves_cons]
      omega

theorem stateLeafList_cons {F : Type} (h : Nat) (b : List F) (rest : List (Nat × List F)) :
    stateLeafList ((h, b) :: rest) = stateLeafList rest ++ b := by
  simp [stateLeafList]

theorem carry_stateLeafList {F : Type} (st : List (Nat × List F)) :
    ∀ h2 (b2 : List F), stateLeafList (carry st (h2, b2)) = stateLeafList st ++ b2 := by
  induction st with
  | nil => intro h2 b2; simp [carry, stateLeafList]
  | cons hb rest ih =>
    intro h2 b2
    obtain ⟨h, b⟩ := hb
    rw [carry]
    by_cases he : h = h2
    · rw [if_pos he, ih, stateLeafList_cons]
      simp [List.append_assoc]
    · rw [if_neg he, stateLeafList_cons, stateLeafList_cons]

theorem carry_WF {F : Type} (st : List (Nat × List F)) :
    ∀ h2 (b2 : List F), StateWF st → (∀ p ∈ st, h2 ≤ p.1) → b2.length = 2 ^ h2 →
    StateWF (carry st (h2, b2)) := by
  induction st with
  | nil =>
    intro h2 b2 _ _ hlen
    exact ⟨hlen, by simp, trivial⟩
  | cons hb rest ih =>
    intro h2 b2 hwf hge hlen
    obtain ⟨h, b⟩ := hb
    obtain ⟨hblen, hrest, hwfrest⟩ := hwf
    rw [carry]
    by_cases he : h = h2
    · rw [if_pos he]
      refine ih (h + 1) (b ++ b2) hwfrest (fun p hp => hrest p hp) ?_
      simp only [List.length_append, hblen, hlen, ← he]
      rw [pow_succ]
      ring
    · rw [if_neg he]
      have hm : h2 ≤ h := hge (h, b) (by simp)
      refine ⟨hlen, ?_, hblen, hrest, hwfrest⟩
      intro p hp
      rcases List.mem_cons.mp hp with hp1 | hp2
      · rw [hp1]; omega
      · have := hrest p hp2; omega

theorem dec_append {F : Type} (R : List (Nat × List F)) :
    ∀ h (b : List F), DecMountains R → (∀ p ∈ R, h < p.1) → b.length = 2 ^ h →
    DecMountains (R ++ [(h, b)]) := by
  induction R with
  | nil => intro h b _ _ hlen; exact ⟨hlen, by simp, trivial⟩
  | cons hb rest ih =>
    intro h b hdec hvals hlen
    obtain ⟨h', b'⟩ := hb
    obtain ⟨hblen, hrest, hdecrest⟩ := hdec
    refine ⟨hblen, ?_, ih h b hdecrest (fun p hp => hvals p (by simp [hp])) hlen⟩
    intro p hp
    rcases List.mem_append.mp hp with hp1 | hp2
    · exact hrest p hp1
    · simp at hp2
      rw [hp2]
      exact hvals (h', b') (by simp)

theorem dec_of_wf {F : Type} (st : List (Nat × List F)) (hwf : StateWF st) :
    DecMountains st.reverse := by
  induction st with
  | nil => exact trivial
  | cons hb rest ih =>
    obtain ⟨h, b⟩ := hb
    obtain ⟨hblen, hrest, hwfrest⟩ := hwf
    rw [List.reverse_cons]
    refine dec_append rest.reverse h b (ih hwfrest) ?_ hblen
    intro p hp
    exact hrest p (List.mem_reverse.mp hp)

theorem popcount_mul_pow_add (k : Nat) : ∀ q m, m < 2 ^ k →
    popcount (q * 2 ^ k + m) = popcount q + popcount m := by
  induction k with
  | zero =>
    intro q m hm
    have hm0 : m = 0 := by omega
    subst hm0
    simp [popcount_zero]
  | succ k ih =>
    intro q m hm
    have hpow : 2 ^ (k + 1) = 2 * 2 ^ k := by rw [pow_succ]; ring
    have h2 : q * 2 ^ (k + 1) = q * 2 ^ k * 2 := by rw [hpow]; ring
    rw [popcount_unfold (q * 2 ^ (k + 1) + m), popcount_unfold m]
    have hmod : (q * 2 ^ (k + 1) + m) % 2 = m % 2 := by omega
    have hdiv : (q * 2 ^ (k + 1) + m) / 2 = q * 2 ^ k + m / 2 := by omega
    rw [hmod, hdiv, ih q (m / 2) (by omega)]
    omega

theorem popcount_two_pow (h : Nat) : popcount (2 ^ h) = 1 := by
  have := popcount_two_pow_add h 0 Nat.one_le_two_pow
  simpa [popcount_zero] using this

theorem wf_leaves_dvd {F : Type} (st : List (Nat × List F)) :
    ∀ h, (∀ p ∈ st, h ≤ p.1) → 2 ^ h ∣ stateLeaves st := by
  induction st with
  | nil => intro h _; simp [stateLeaves_nil]
  | cons hb rest ih =>
    intro h hall
    obtain ⟨h1, b1⟩ := hb
    rw [stateLeaves_cons]
    have hh1 : h ≤ h1 := hall (h1, b1) (by simp)
    exact Nat.dvd_add (pow_dvd_pow 2 hh1) (ih h (fun p hp => hall p (by simp [hp])))

theorem wf_popcount {F : Type} (st : List (Nat × List F)) (hwf : StateWF st) :
    popcount (stateLeaves st) = st.length := by
  induction st with
  | nil => simp [stateLeaves_nil, popcount_zero]
  | cons hb rest ih =>
    obtain ⟨h, b⟩ := hb
    obtain ⟨hblen, hrest, hwfrest⟩ := hwf
    rw [stateLeaves_cons]
    obtain ⟨q, hq⟩ : 2 ^ (h + 1) ∣ stateLeaves rest :=
      wf_leaves_dvd rest (h + 1) (fun p hp => hrest p hp)
    have hpow : 2 ^ (h + 1) = 2 * 2 ^ h := by rw [pow_succ]; ring
    have hh1 : 1 ≤ 2 ^ h := Nat.one_le_two_pow
    have h3 : popcount (stateLeaves rest) = popcount q := by
      rw [hq, show (2 : Nat) ^ (h + 1) * q = q * 2 ^ (h + 1) + 0 by ring]
      rw [popcount_mul_pow_add (h + 1) q 0 Nat.one_le_two_pow, popcount_zero]
      omega
    have h1 : popcount (2 ^ h + stateLeaves rest) = popcount q + 1 := by
      rw [hq, show 2 ^ h + 2 ^ (h + 1) * q = q * 2 ^ (h + 1) + 2 ^ h by ring]
      rw [popcount_mul_pow_add (h + 1) q (2 ^ h) (by omega), popcount_two_pow]
    have h4 := ih hwfrest
    simp only [List.length_cons]
    omega

theorem stateLeaves_ge_length {F : Type} (st : List (Nat × List F)) :
    st.length ≤ stateLeaves st := by
  induction st with
  | nil => simp [stateLeaves_nil]
  | cons hb rest ih =>
    obtain ⟨h, b⟩ := hb
    rw [stateLeaves_cons]
    have : 1 ≤ 2 ^ h := Nat.one_le_two_pow
    simp only [List.length_cons]
    omega

theorem sum_mountain_sizes {F : Type} (st : List (Nat × List F)) :
    (st.map fun hb => 2 ^ (hb.1 + 1) - 1).sum = 2 * stateLeaves st - st.length := by
  induction st with
  | nil => simp [stateLeaves_nil]
  | cons hb rest ih =>
    obtain ⟨h, b⟩ := hb
    rw [stateLeaves_cons]
    have hpow : 2 ^ (h + 1) = 2 * 2 ^ h := by rw [pow_succ]; ring
    have h1 : 1 ≤ 2 ^ h := Nat.one_le_two_pow
    have h2 := stateLeaves_ge_length rest
    simp only [List.map_cons, List.sum_cons, List.length_cons, ih]
    omega

theorem mountainsFlat_nil {F : Type} [Zero F] (hashNoPad : List F → HashOut F)
    (twoToOne : HashOut F → HashOut F → HashOut F) :
    mountainsFlat hashNoPad twoToOne [] = [] := rfl

theorem mountainsFlat_cons {F : Type} [Zero F] (hashNoPad : List F → HashOut F)
    (twoToOne : HashOut F → HashOut F → HashOut F) (h : Nat) (b : List F)
    (R : List (Nat × List F)) :
    mountainsFlat hashNoPad twoToOne ((h, b) :: R) =
      mflat hashNoPad twoToOne h b ++ mountainsFlat hashNoPad twoToOne R := by
  simp [mountainsFlat]

theorem mountainsFlat_append {F : Type} [Zero F] (hashNoPad : List F → HashOut F)
    (twoToOne : HashOut F → HashOut F → HashOut F) (R R' : List (Nat × List F)) :
    mountainsFlat hashNoPad twoToOne (R ++ R') =
      mountainsFlat hashNoPad twoToOne R ++ mountainsFlat hashNoPad twoToOne R' := by
  simp [mountainsFlat]

theorem stateLayout_nil {F : Type} [Zero F] (hashNoPad : List F → HashOut F)
    (twoToOne : HashOut F → HashOut F → HashOut F) :
    stateLayout hashNoPad twoToOne ([] : List (Nat × List F)) = [] := rfl

theorem stateLayout_cons {F : Type} [Zero F] (hashNoPad : List F → HashOut F)
    (twoToOne : HashOut F → HashOut F → HashOut F) (h : Nat) (b : List F)
    (st : List (Nat × List F)) :
    stateLayout hashNoPad twoToOne ((h, b) :: st) =
      stateLayout hashNoPad twoToOne st ++ mflat hashNoPad twoToOne h b := by
  rw [stateLayout, List.reverse_cons, mountainsFlat_append, mountainsFlat_cons,
    mountainsFlat_nil, List.append_nil]
  rfl

theorem mountainsFlat_length {F : Type} [Zero F] (hashNoPad : List F → HashOut F)
    (twoToOne : HashOut F → HashOut F → HashOut F) (R : List (Nat × List F)) :
    (mountainsFlat hashNoPad twoToOne R).length =
      (R.map fun hb => 2 ^ (hb.1 + 1) - 1).sum := by
  induction R with
  | nil => rfl
  | cons hb rest ih =>
    obtain ⟨h, b⟩ := hb
    rw [mountainsFlat_cons]
    simp [mflat_length, ih]

theorem stateLayout_length {F : Type} [Zero F] (hashNoPad : List F → HashOut F)
    (twoToOne : HashOut F → HashOut F → HashOut F) (st : List (Nat × List F))
    (hwf : StateWF st) :
    (stateLayout hashNoPad twoToOne st).length =
      2 * stateLeaves st - popcount (stateLeaves st) := by
  rw [stateLayout, mountainsFlat_length, List.map_reverse, List.sum_reverse,
    sum_mountain_sizes, wf_popcount st hwf]

theorem mdigest_merge {F : Type} [Zero F] (hashNoPad : List F → HashOut F)
    (twoToOne : HashOut F → HashOut F → HashOut F) (t : Nat) (b1 b2 : List F)
    (h1 : b1.length = 2 ^ t) :
    mdigest hashNoPad twoToOne (t + 1) (b1 ++ b2) =
      twoToOne (mdigest hashNoPad twoToOne t b1) (mdigest hashNoPad twoToOne t b2) := by
  rw [mdigest, List.take_left' h1, List.drop_left' h1]

theorem mflat_merge {F : Type} [Zero F] (hashNoPad : List F → HashOut F)
    (twoToOne : HashOut F → HashOut F → HashOut F) (t : Nat) (b1 b2 : List F)
    (h1 : b1.length = 2 ^ t) :
    mflat hashNoPad twoToOne (t + 1) (b1 ++ b2) =
      mflat hashNoPad twoToOne t b1 ++ mflat hashNoPad twoToOne t b2 ++
        [mdigest hashNoPad twoToOne (t + 1) (b1 ++ b2)] := by
  rw [mflat, List.take_left' h1, List.drop_left' h1]

/-- Core simulation of the cascading-merge loop of `add_leaf`: with the
accumulator holding the mountains `rest` (smallest first, all of height at
least `t`) followed by a freshly completed carried mountain of height `t`
over leaf block `bb`, the loop computes exactly the layout of the abstract
binary-counter step `carry rest (t, bb)`. -/
theorem add_leaf_loop_sim {F : Type} [Zero F] (hashNoPad : List F → HashOut F)
    (twoToOne : HashOut F → HashOut F → HashOut F) (rest : List (Nat × List F)) :
    ∀ (t : Nat) (bb : List F), StateWF rest → (∀ p ∈ rest, t ≤ p.1) →
    bb.length = 2 ^ t →
    add_leaf_loop twoToOne (stateLeaves rest / 2 ^ t) (t + 1)
        ((stateLayout hashNoPad twoToOne rest).length + 2 ^ (t + 1) - 2)
        (mdigest hashNoPad twoToOne t bb)
        (stateLayout hashNoPad twoToOne rest ++ mflat hashNoPad twoToOne t bb) =
      stateLayout hashNoPad twoToOne (carry rest (t, bb)) := by
  induction rest with
  | nil =>
    intro t bb _ _ _
    rw [stateLayout_nil, add_leaf_loop]
    simp only [stateLeaves_nil, Nat.zero_div, dif_pos rfl, carry]
    rw [stateLayout, List.reverse_cons]
    simp [mountainsFlat]
  | cons hb rest' ih =>
    intro t bb hwf hall hbb
    obtain ⟨h, b⟩ := hb
    obtain ⟨hblen, hrest, hwfrest⟩ := hwf
    have hpowt : 2 ^ (t + 1) = 2 * 2 ^ t := by rw [pow_succ]; ring
    have hpt1 : 1 ≤ 2 ^ t := Nat.one_le_two_pow
    have hpt2 : 1 ≤ 2 ^ (t + 1) := Nat.one_le_two_pow
    by_cases he : h = t
    · -- the lowest mountain has exactly the carried height: merge
      subst he
      obtain ⟨q, hq⟩ : 2 ^ (h + 1) ∣ stateLeaves rest' :=
        wf_leaves_dvd rest' (h + 1) (fun p hp => hrest p hp)
      have hpeaks : stateLeaves ((h, b) :: rest') / 2 ^ h = 2 * q + 1 := by
        rw [stateLeaves_cons, hq,
          show 2 ^ h + 2 ^ (h + 1) * q = (2 * q + 1) * 2 ^ h by rw [hpowt]; ring]
        exact Nat.mul_div_cancel _ (by omega)
      have hsq : stateLeaves rest' / 2 ^ (h + 1) = q := by
        rw [hq]
        exact Nat.mul_div_cancel_left q (by omega)
      rw [stateLayout_cons, List.length_append, mflat_length, hpeaks, add_leaf_loop,
        dif_neg (by omega : ¬(2 * q + 1 = 0)), if_pos (by omega : (2 * q + 1) % 2 = 1)]
      simp only []
      have hidx : (stateLayout hashNoPad twoToOne rest').length + (2 ^ (h + 1) - 1) +
          2 ^ (h + 1) - 2 - (2 ^ (h + 1) - 1) =
          (stateLayout hashNoPad twoToOne rest').length + (2 ^ (h + 1) - 2) := by
        omega
      rw [hidx]
      have hget : ((stateLayout hashNoPad twoToOne rest' ++
            mflat hashNoPad twoToOne h b) ++ mflat hashNoPad twoToOne h bb).getD
            ((stateLayout hashNoPad twoToOne rest').length + (2 ^ (h + 1) - 2))
            ⟨0, 0, 0, 0⟩ = mdigest hashNoPad twoToOne h b := by
        rw [List.append_assoc,
          List.getD_append_right _ _ _ _ (by omega),
          show (stateLayout hashNoPad twoToOne rest').length + (2 ^ (h + 1) - 2) -
            (stateLayout hashNoPad twoToOne rest').length = 2 ^ (h + 1) - 2 by omega,
          List.getD_append _ _ _ _ (by rw [mflat_length]; omega)]
        exact mflat_getD_last hashNoPad twoToOne h b _
      rw [hget, (mdigest_merge hashNoPad twoToOne h b bb hblen).symm]
      rw [carry, if_pos rfl]
      rw [← ih (h + 1) (b ++ bb) hwfrest (fun p hp => hrest p hp)
        (by simp [hblen, hbb, pow_succ]; ring)]
      congr 1
      · rw [hsq]
        omega
      · omega
      · rw [mflat_merge hashNoPad twoToOne h b bb hblen]
        simp [List.append_assoc]
    · -- the lowest mountain is taller: the cascade stops here
      have hlt : t < h := by
        have := hall (h, b) (by simp)
        omega
      obtain ⟨Q, hQ⟩ : 2 ^ (t + 1) ∣ stateLeaves ((h, b) :: rest') := by
        refine wf_leaves_dvd _ (t + 1) ?_
        intro p hp
        rcases List.mem_cons.mp hp with hp1 | hp2
        · rw [hp1]; omega
        · have := hrest p hp2; omega
      have hpeaks : stateLeaves ((h, b) :: rest') / 2 ^ t = 2 * Q := by
        rw [hQ, show 2 ^ (t + 1) * Q = 2 * Q * 2 ^ t by rw [hpowt]; ring]
        exact Nat.mul_div_cancel _ (by omega)
      have hQ1 : 1 ≤ Q := by
        have hple : 2 ^ (t + 1) ≤ 2 ^ h := Nat.pow_le_pow_right (by norm_num) (by omega)
        have hge : 2 ^ h ≤ stateLeaves ((h, b) :: rest') := by
          rw [stateLeaves_cons]; omega
        by_contra hc
        have : Q = 0 := by omega
        rw [this] at hQ
        omega
      rw [hpeaks, add_leaf_loop, dif_neg (by omega : ¬(2 * Q = 0)),
        if_neg (by omega : ¬(2 * Q % 2 = 1))]
      rw [carry, if_neg he, stateLayout_cons, stateLayout_cons, stateLayout_cons]

/-- One `add_leaf` call on a canonical accumulator performs exactly one
abstract binary-counter step. -/
theorem add_leaf_sim {F : Type} [Zero F] (hashNoPad : List F → HashOut F)
    (twoToOne : HashOut F → HashOut F → HashOut F) (st : List (Nat × List F))
    (x : F) (hwf : StateWF st) :
    MMR.add_leaf hashNoPad twoToOne ⟨stateLayout hashNoPad twoToOne st⟩ x =
      ⟨stateLayout hashNoPad twoToOne (carry st (0, [x]))⟩ := by
  cases st with
  | nil =>
    rw [MMR.add_leaf]
    simp [stateLayout, carry, mountainsFlat, mflat]
  | cons hb st' =>
    obtain ⟨h, b⟩ := hb
    have hS1 : 1 ≤ stateLeaves ((h, b) :: st') := by
      rw [stateLeaves_cons]
      have : 1 ≤ 2 ^ h := Nat.one_le_two_pow
      omega
    have hpc := popcount_le (stateLeaves ((h, b) :: st'))
    have hpcp := popcount_pos _ hS1
    have hlen := stateLayout_length hashNoPad twoToOne ((h, b) :: st') hwf
    have hlpos : 1 ≤ (stateLayout hashNoPad twoToOne ((h, b) :: st')).length := by
      omega
    have hne : (stateLayout hashNoPad twoToOne ((h, b) :: st')).isEmpty = false := by
      cases hl : stateLayout hashNoPad twoToOne ((h, b) :: st') with
      | nil => rw [hl] at hlpos; simp at hlpos
      | cons a l => rfl
    have hfst : (get_heights_bitmap_for_mmr_size
        (stateLayout hashNoPad twoToOne ((h, b) :: st')).length).1 =
        stateLeaves ((h, b) :: st') := by
      rw [hlen, get_heights_bitmap_canonical _ hS1]
    rw [MMR.add_leaf]
    simp only [hne, Bool.false_eq_true, if_false, MMR.mk.injEq]
    rw [hfst]
    have hsim := add_leaf_loop_sim hashNoPad twoToOne ((h, b) :: st') 0 [x] hwf
      (by intro p _; omega) (by simp)
    simp only [pow_zero, Nat.div_one, Nat.zero_add, pow_one] at hsim
    have hmf0 : mflat hashNoPad twoToOne 0 [x] = [hash_or_noop hashNoPad [x]] := by
      simp [mflat]
    have hmd0 : mdigest hashNoPad twoToOne 0 [x] = hash_or_noop hashNoPad [x] := by
      simp [mdigest]
    rw [hmf0, hmd0] at hsim
    rw [show (stateLayout hashNoPad twoToOne ((h, b) :: st')).length + 2 - 2 =
      (stateLayout hashNoPad twoToOne ((h, b) :: st')).length by omega] at hsim
    exact hsim

/-- The accumulator built by `n` `add_leaf` calls is the canonical layout of
the abstract counter state, which is well formed, holds `n` leaves, and
records exactly the inserted leaf sequence. -/
theorem buildMMR_state {F : Type} [Zero F] (hashNoPad : List F → HashOut F)
    (twoToOne : HashOut F → HashOut F → HashOut F) (ls : List F) :
    buildMMR hashNoPad twoToOne ls =
      ⟨stateLayout hashNoPad twoToOne (counterState F ls)⟩ ∧
    StateWF (counterState F ls) ∧
    stateLeaves (counterState F ls) = ls.length ∧
    stateLeafList (counterState F ls) = ls := by
  induction ls using List.reverseRecOn with
  | nil =>
    refine ⟨rfl, trivial, rfl, rfl⟩
  | append_singleton ls x ih =>
    obtain ⟨hbuild, hwf, hcount, hleaves⟩ := ih
    have hstate : counterState F (ls ++ [x]) = carry (counterState F ls) (0, [x]) := by
      rw [counterState, List.foldl_append, List.foldl_cons, List.foldl_nil]
      rfl
    refine ⟨?_, ?_, ?_, ?_⟩
    · rw [buildMMR, List.foldl_append, List.foldl_cons, List.foldl_nil, ← buildMMR,
        hbuild, hstate]
      exact add_leaf_sim hashNoPad twoToOne (counterState F ls) x hwf
    · rw [hstate]
      exact carry_WF (counterState F ls) 0 [x] hwf (fun p _ => by omega) (by simp)
    · rw [hstate, carry_stateLeaves, hcount]
      simp
    · rw [hstate, carry_stateLeafList, hleaves]

theorem mountainsPeaks_nil {F : Type} [Zero F] (hashNoPad : List F → HashOut F)
    (twoToOne : HashOut F → HashOut F → HashOut F) :
    mountainsPeaks hashNoPad twoToOne ([] : List (Nat × List F)) = [] := rfl

theorem mountainsPeaks_cons {F : Type} [Zero F] (hashNoPad : List F → HashOut F)
    (twoToOne : HashOut F → HashOut F → HashOut F) (h : Nat) (b : List F)
    (R : List (Nat × List F)) :
    mountainsPeaks hashNoPad twoToOne ((h, b) :: R) =
      mdigest hashNoPad twoToOne h b :: mountainsPeaks hashNoPad twoToOne R := rfl

/-- Total layout size of mountains all shorter than `H`. -/
theorem dec_flat_le {F : Type} [Zero F] (hashNoPad : List F → HashOut F)
    (twoToOne : HashOut F → HashOut F → HashOut F) (R : List (Nat × List F)) :
    ∀ H, DecMountains R → (∀ p ∈ R, p.1 < H) →
    (mountainsFlat hashNoPad twoToOne R).length ≤ 2 ^ (H + 1) - 2 := by
  induction R with
  | nil =>
    intro H _ _
    simp [mountainsFlat_nil]
  | cons hb R' ih =>
    intro H hdec hlt
    obtain ⟨h, b⟩ := hb
    obtain ⟨hlen, hrest, hdec'⟩ := hdec
    rw [mountainsFlat_cons]
    have h1 := ih h hdec' (fun p hp => hrest p hp)
    have hh : h < H := hlt (h, b) (by simp)
    have hp1 : 2 ^ (h + 2) ≤ 2 ^ (H + 1) := Nat.pow_le_pow_right (by norm_num) (by omega)
    have hp2 : 2 ^ (h + 2) = 2 * 2 ^ (h + 1) := by rw [pow_succ]; ring
    have hp3 : 1 ≤ 2 ^ (h + 1) := Nat.one_le_two_pow
    simp only [List.length_append, mflat_length]
    omega

theorem get_peaks_loop_current_zero {F : Type} [Zero F] (elements : List (HashOut F))
    (K : Nat) : ∀ pos acc,
    get_peaks_loop elements (2 ^ K - 1) 0 pos acc = acc := by
  induction K with
  | zero => intro pos acc; rw [get_peaks_loop]; simp
  | succ K ih =>
    intro pos acc
    have h1 : 1 ≤ 2 ^ (K + 1) := Nat.one_le_two_pow
    have hpow : 2 ^ (K + 1) = 2 * 2 ^ K := by rw [pow_succ]; ring
    have h2 : 1 ≤ 2 ^ K := Nat.one_le_two_pow
    have hdiv : (2 ^ (K + 1) - 1) / 2 = 2 ^ K - 1 := by omega
    rw [get_peaks_loop, dif_neg (by omega : ¬(2 ^ (K + 1) - 1 = 0)),
      if_neg (by omega : ¬(2 ^ (K + 1) - 1 ≤ 0)), hdiv]
    exact ih pos acc

/-- The greedy peak-collection loop of `get_peaks` visits exactly the roots of
the canonical mountains, tallest first. -/
theorem get_peaks_loop_sim {F : Type} [Zero F] (hashNoPad : List F → HashOut F)
    (twoToOne : HashOut F → HashOut F → HashOut F) (K : Nat) :
    ∀ (R : List (Nat × List F)) (pref : List (HashOut F)) acc,
    DecMountains R → (∀ p ∈ R, p.1 + 1 ≤ K) →
    get_peaks_loop (pref ++ mountainsFlat hashNoPad twoToOne R) (2 ^ K - 1)
        (mountainsFlat hashNoPad twoToOne R).length pref.length acc =
      acc ++ mountainsPeaks hashNoPad twoToOne R := by
  induction K with
  | zero =>
    intro R pref acc hdec hK
    cases R with
    | nil => rw [get_peaks_loop]; simp [mountainsFlat_nil, mountainsPeaks_nil]
    | cons hb R' =>
      exact absurd (hK hb (by simp)) (by omega)
  | succ K ih =>
    intro R pref acc hdec hK
    cases R with
    | nil =>
      rw [mountainsFlat_nil, mountainsPeaks_nil, List.append_nil, List.append_nil]
      exact get_peaks_loop_current_zero (pref) (K + 1) pref.length acc
    | cons hb R' =>
      obtain ⟨H, b⟩ := hb
      obtain ⟨hblen, hrest, hdec'⟩ := hdec
      have hp1 : 1 ≤ 2 ^ (K + 1) := Nat.one_le_two_pow
      have hpow : 2 ^ (K + 1) = 2 * 2 ^ K := by rw [pow_succ]; ring
      have hp2 : 1 ≤ 2 ^ K := Nat.one_le_two_pow
      have hdiv : (2 ^ (K + 1) - 1) / 2 = 2 ^ K - 1 := by omega
      have hpH : 1 ≤ 2 ^ (H + 1) := Nat.one_le_two_pow
      have hHK : H + 1 ≤ K + 1 := hK (H, b) (by simp)
      rw [mountainsFlat_cons, List.length_append, mflat_length]
      rcases Nat.eq_or_lt_of_le hHK with heq | hlt
      · -- H = K: this mountain is taken
        have hHKe : H = K := by omega
        subst hHKe
        rw [get_peaks_loop, dif_neg (by omega : ¬(2 ^ (H + 1) - 1 = 0)),
          if_pos (by omega), hdiv]
        have hsub : 2 ^ (H + 1) - 1 + (mountainsFlat hashNoPad twoToOne R').length -
            (2 ^ (H + 1) - 1) = (mountainsFlat hashNoPad twoToOne R').length := by
          omega
        have hget : (pref ++ (mflat hashNoPad twoToOne H b ++
              mountainsFlat hashNoPad twoToOne R')).getD
              (pref.length + (2 ^ (H + 1) - 1) - 1) ⟨0, 0, 0, 0⟩ =
            mdigest hashNoPad twoToOne H b := by
          rw [List.getD_append_right _ _ _ _ (by omega),
            show pref.length + (2 ^ (H + 1) - 1) - 1 - pref.length =
              2 ^ (H + 1) - 2 by omega,
            List.getD_append _ _ _ _ (by rw [mflat_length]; omega)]
          exact mflat_getD_last hashNoPad twoToOne H b _
        have hre : pref ++ (mflat hashNoPad twoToOne H b ++
            mountainsFlat hashNoPad twoToOne R') =
            (pref ++ mflat hashNoPad twoToOne H b) ++
              mountainsFlat hashNoPad twoToOne R' := by
          simp [List.append_assoc]
        rw [hsub, hget, hre,
          show pref.length + (2 ^ (H + 1) - 1) =
            (pref ++ mflat hashNoPad twoToOne H b).length by
            simp [mflat_length],
          ih R' (pref ++ mflat hashNoPad twoToOne H b)
            (acc ++ [mdigest hashNoPad twoToOne H b]) hdec'
            (fun p hp => by have := hrest p hp; omega)]
        rw [mountainsPeaks_cons]
        simp
      · -- H + 1 < K + 1: the candidate size is too large, skip it
        have hbound := dec_flat_le hashNoPad twoToOne R' H hdec' hrest
        have hple : 2 ^ (H + 2) ≤ 2 ^ (K + 1) :=
          Nat.pow_le_pow_right (by norm_num) (by omega)
        have hpow2 : 2 ^ (H + 2) = 2 * 2 ^ (H + 1) := by rw [pow_succ]; ring
        rw [get_peaks_loop, dif_neg (by omega : ¬(2 ^ (K + 1) - 1 = 0)),
          if_neg (by omega), hdiv]
        have := ih ((H, b) :: R') pref acc ⟨hblen, hrest, hdec'⟩
          (by
            intro p hp
            rcases List.mem_cons.mp hp with hp1 | hp2
            · rw [hp1]; omega
            · have := hrest p hp2; omega)
        rw [mountainsFlat_cons, List.length_append, mflat_length] at this
        exact this

theorem list_mem_size_le_flat {F : Type} [Zero F] (hashNoPad : List F → HashOut F)
    (twoToOne : HashOut F → HashOut F → HashOut F) (R : List (Nat × List F)) :
    ∀ p ∈ R, 2 ^ (p.1 + 1) - 1 ≤ (mountainsFlat hashNoPad twoToOne R).length := by
  induction R with
  | nil => intro p hp; simp at hp
  | cons hb R' ih =>
    intro p hp
    obtain ⟨h, b⟩ := hb
    rw [mountainsFlat_cons, List.length_append, mflat_length]
    rcases List.mem_cons.mp hp with hp1 | hp2
    · rw [hp1]
      simp
    · have := ih p hp2; omega

/-- `get_peaks` on a canonical accumulator returns the mountain roots,
tallest first. -/
theorem get_peaks_canonical {F : Type} [Zero F] (hashNoPad : List F → HashOut F)
    (twoToOne : HashOut F → HashOut F → HashOut F) (st : List (Nat × List F))
    (hwf : StateWF st) (hne : st ≠ []) :
    MMR.get_peaks ⟨stateLayout hashNoPad twoToOne st⟩ =
      some (mountainsPeaks hashNoPad twoToOne st.reverse) := by
  have hdec := dec_of_wf st hwf
  have hRne : st.reverse ≠ [] := by
    intro hc
    exact hne (by simpa using congrArg List.reverse hc)
  have hlpos : 1 ≤ (stateLayout hashNoPad twoToOne st).length := by
    cases hR : st.reverse with
    | nil => exact absurd hR hRne
    | cons hb R' =>
      obtain ⟨h, b⟩ := hb
      have hle := list_mem_size_le_flat hashNoPad twoToOne st.reverse (h, b) (by rw [hR]; simp)
      dsimp only at hle
      have hp : 1 ≤ 2 ^ (h + 1) := Nat.one_le_two_pow
      rw [stateLayout]
      omega
  obtain ⟨hb1, hlow, hhigh⟩ := bitlen_spec _ hlpos
  rw [MMR.get_peaks]
  dsimp only
  rw [if_neg (by omega : ¬((stateLayout hashNoPad twoToOne st).length = 0))]
  have hK : ∀ p ∈ st.reverse, p.1 + 1 ≤ bitlen (stateLayout hashNoPad twoToOne st).length := by
    intro p hp
    have hszle := list_mem_size_le_flat hashNoPad twoToOne st.reverse p hp
    rw [← stateLayout] at hszle
    have h2 : 2 ^ (p.1 + 1) ≤ 2 ^ bitlen (stateLayout hashNoPad twoToOne st).length := by
      omega
    exact (Nat.pow_le_pow_iff_right (by norm_num)).mp h2
  have hloop := get_peaks_loop_sim hashNoPad twoToOne
    (bitlen (stateLayout hashNoPad twoToOne st).length) st.reverse [] [] hdec hK
  simp only [List.nil_append, List.length_nil] at hloop
  rw [← stateLayout] at hloop
  rw [hloop]

/-! ### The bitmap remainder computes element heights -/

theorem mountainsHeights_nil {F : Type} :
    mountainsHeights (F := F) [] = [] := rfl

theorem mountainsHeights_cons {F : Type} (h : Nat) (b : List F)
    (R : List (Nat × List F)) :
    mountainsHeights ((h, b) :: R) = mheights h ++ mountainsHeights R := by
  simp [mountainsHeights]

theorem dec_heights_le {F : Type} (R : List (Nat × List F)) :
    ∀ H, DecMountains R → (∀ p ∈ R, p.1 < H) →
    (mountainsHeights R).length ≤ 2 ^ (H + 1) - 2 := by
  induction R with
  | nil =>
    intro H _ _
    simp [mountainsHeights_nil]
  | cons hb R' ih =>
    intro H hdec hlt
    obtain ⟨h, b⟩ := hb
    obtain ⟨hblen, hrest, hdec'⟩ := hdec
    rw [mountainsHeights_cons]
    have h1 := ih h hdec' (fun p hp => hrest p hp)
    have hh : h < H := hlt (h, b) (by simp)
    have hp1 : 2 ^ (h + 2) ≤ 2 ^ (H + 1) := Nat.pow_le_pow_right (by norm_num) (by omega)
    have hp2 : 2 ^ (h + 2) = 2 * 2 ^ (h + 1) := by rw [pow_succ]; ring
    have hp3 : 1 ≤ 2 ^ (h + 1) := Nat.one_le_two_pow
    simp only [List.length_append, mheights_length]
    omega

/-- Mid-loop chain: once the greedy loop has entered a mountain root's
cascade, each remaining candidate size is taken and the remainder grows by
one per level. -/
theorem heights_bitmap_loop_chain (m : Nat) : ∀ e acc,
    (heights_bitmap_loop (2 ^ m - 1) (2 ^ (m + 1) + e) acc).2 = m + e + 2 := by
  induction m with
  | zero =>
    intro e acc
    rw [heights_bitmap_loop]
    simp
    omega
  | succ m ih =>
    intro e acc
    have hp1 : 1 ≤ 2 ^ (m + 1) := Nat.one_le_two_pow
    have hp2 : 2 ^ (m + 2) = 2 * 2 ^ (m + 1) := by rw [pow_succ]; ring
    have hp3 : 2 ^ (m + 1) = 2 * 2 ^ m := by rw [pow_succ]; ring
    have hp4 : 1 ≤ 2 ^ m := Nat.one_le_two_pow
    have hdiv : (2 ^ (m + 1) - 1) / 2 = 2 ^ m - 1 := by omega
    rw [heights_bitmap_loop, dif_neg (by omega : ¬(2 ^ (m + 1) - 1 = 0)),
      if_pos (by omega), hdiv,
      show 2 ^ (m + 1 + 1) + e - (2 ^ (m + 1) - 1) = 2 ^ (m + 1) + (e + 1) by omega,
      ih (e + 1)]
    omega

/-- Entering a mountain root: the greedy loop on the full mountain size
`2^(m+1) - 1` starting from candidate `2^m - 1` leaves remainder `m + 1`. -/
theorem heights_bitmap_loop_root (m : Nat) : ∀ acc,
    (heights_bitmap_loop (2 ^ m - 1) (2 ^ (m + 1) - 1) acc).2 = m + 1 := by
  cases m with
  | zero =>
    intro acc
    rw [heights_bitmap_loop]
    simp
  | succ m =>
    intro acc
    have hp1 : 1 ≤ 2 ^ (m + 1) := Nat.one_le_two_pow
    have hp2 : 2 ^ (m + 2) = 2 * 2 ^ (m + 1) := by rw [pow_succ]; ring
    have hp3 : 2 ^ (m + 1) = 2 * 2 ^ m := by rw [pow_succ]; ring
    have hp4 : 1 ≤ 2 ^ m := Nat.one_le_two_pow
    have hdiv : (2 ^ (m + 1) - 1) / 2 = 2 ^ m - 1 := by omega
    rw [heights_bitmap_loop, dif_neg (by omega : ¬(2 ^ (m + 1) - 1 = 0)),
      if_pos (by omega), hdiv,
      show 2 ^ (m + 1 + 1) - 1 - (2 ^ (m + 1) - 1) = 2 ^ (m + 1) + 0 by omega,
      heights_bitmap_loop_chain m 0]

/-- In-mountain height computation: for a flat position `r` inside a complete
mountain of height `h`, the greedy loop started at any candidate size
`2^K - 1` with `K ≥ h` leaves exactly the height of the element at `r`. -/
theorem heights_bitmap_loop_mheights (K : Nat) : ∀ h r acc, h ≤ K →
    r < 2 ^ (h + 1) - 1 →
    (heights_bitmap_loop (2 ^ K - 1) r acc).2 = (mheights h).getD r 0 := by
  induction K with
  | zero =>
    intro h r acc hh hr
    have h0 : h = 0 := by omega
    subst h0
    have hr0 : r = 0 := by omega
    subst hr0
    rw [heights_bitmap_loop]
    simp [mheights]
  | succ K ih =>
    intro h r acc hh hr
    have hp1 : 1 ≤ 2 ^ (K + 1) := Nat.one_le_two_pow
    have hp2 : 2 ^ (K + 1) = 2 * 2 ^ K := by rw [pow_succ]; ring
    have hp4 : 1 ≤ 2 ^ K := Nat.one_le_two_pow
    have hdiv : (2 ^ (K + 1) - 1) / 2 = 2 ^ K - 1 := by omega
    rcases Nat.lt_or_ge h (K + 1) with hlt | hge
    · -- the candidate is larger than the whole mountain: skip down
      have hple : 2 ^ (h + 1) ≤ 2 ^ (K + 1) :=
        Nat.pow_le_pow_right (by norm_num) (by omega)
      rw [heights_bitmap_loop, dif_neg (by omega : ¬(2 ^ (K + 1) - 1 = 0)),
        if_neg (by omega), hdiv]
      exact ih h r (2 * acc) (by omega) hr
    · -- h = K + 1: the candidate is the size of the two submountains
      have he : h = K + 1 := by omega
      subst he
      have hph : 2 ^ (K + 2) = 2 * 2 ^ (K + 1) := by rw [pow_succ]; ring
      rcases Nat.lt_or_ge r (2 ^ (K + 1) - 1) with hr1 | hr2
      · -- inside the left submountain: the candidate does not fit
        rw [heights_bitmap_loop, dif_neg (by omega : ¬(2 ^ (K + 1) - 1 = 0)),
          if_neg (by omega), hdiv]
        rw [ih K r (2 * acc) le_rfl hr1, mheights,
          List.getD_append _ _ 0 _ (by simp only [List.length_append, mheights_length]; omega),
          List.getD_append _ _ 0 _ (by rw [mheights_length]; omega)]
      · rcases Nat.lt_or_ge r (2 ^ (K + 2) - 2) with hr3 | hr4
        · -- inside the right submountain: take the candidate and continue
          rw [heights_bitmap_loop, dif_neg (by omega : ¬(2 ^ (K + 1) - 1 = 0)),
            if_pos (by omega), hdiv]
          have hr' : r - (2 ^ (K + 1) - 1) < 2 ^ (K + 1) - 1 := by omega
          rw [ih K (r - (2 ^ (K + 1) - 1)) _ le_rfl hr']
          rw [mheights, List.append_assoc,
            List.getD_append_right _ _ 0 _ (by rw [mheights_length]; omega),
            mheights_length,
            List.getD_append _ _ 0 _ (by rw [mheights_length]; omega)]
        · -- the mountain root itself
          have hre : r = 2 ^ (K + 2) - 2 := by omega
          subst hre
          rw [heights_bitmap_loop, dif_neg (by omega : ¬(2 ^ (K + 1) - 1 = 0)),
            if_pos (by omega), hdiv,
            show 2 ^ (K + 2) - 2 - (2 ^ (K + 1) - 1) = 2 ^ (K + 1) - 1 by omega,
            heights_bitmap_loop_root K]
          rw [show 2 ^ (K + 2) - 2 = 2 ^ (K + 1 + 1) - 2 by norm_num,
            mheights_getD_last (K + 1)]

theorem mheights_getD_zero (h : Nat) : (mheights h).getD 0 0 = 0 := by
  induction h with
  | zero => rfl
  | succ h ih =>
    have h2 : 2 ≤ 2 ^ (h + 1) := by
      have : (2 : Nat) ^ 1 ≤ 2 ^ (h + 1) := Nat.pow_le_pow_right (by norm_num) (by omega)
      simpa using this
    rw [mheights, List.append_assoc,
      List.getD_append _ _ 0 _ (by rw [mheights_length]; omega)]
    exact ih

theorem mountainsHeights_length {F : Type} (R : List (Nat × List F)) :
    (mountainsHeights R).length = (R.map fun hb => 2 ^ (hb.1 + 1) - 1).sum := by
  induction R with
  | nil => rfl
  | cons hb rest ih =>
    obtain ⟨h, b⟩ := hb
    rw [mountainsHeights_cons]
    simp [mheights_length, ih]

theorem heights_flat_length {F : Type} [Zero F] (hashNoPad : List F → HashOut F)
    (twoToOne : HashOut F → HashOut F → HashOut F) (R : List (Nat × List F)) :
    (mountainsHeights R).length = (mountainsFlat hashNoPad twoToOne R).length := by
  rw [mountainsHeights_length, mountainsFlat_length]

theorem list_mem_size_le_heights {F : Type} (R : List (Nat × List F)) :
    ∀ p ∈ R, 2 ^ (p.1 + 1) - 1 ≤ (mountainsHeights R).length := by
  induction R with
  | nil => intro p hp; simp at hp
  | cons hb R' ih =>
    intro p hp
    obtain ⟨h, b⟩ := hb
    rw [mountainsHeights_cons, List.length_append, mheights_length]
    rcases List.mem_cons.mp hp with hp1 | hp2
    · rw [hp1]
      simp
    · have := ih p hp2; omega

/-- Bound on an MMR-size made of complete mountains of heights below `H`
followed by a position inside an even smaller mountain: it stays strictly
below the candidate subtree size `2^(H+1) - 1` of height `H`. -/
theorem dec_heights_r_le {F : Type} (R : List (Nat × List F)) :
    ∀ H h r, DecMountains R → (∀ q ∈ R, q.1 < H) → (∀ q ∈ R, h < q.1) →
    h < H → r < 2 ^ (h + 1) - 1 →
    (mountainsHeights R).length + r ≤ 2 ^ (H + 1) - 3 := by
  induction R with
  | nil =>
    intro H h r _ _ _ hhH hr
    have hp1 : 2 ^ (h + 1) ≤ 2 ^ H := Nat.pow_le_pow_right (by norm_num) (by omega)
    have hp2 : 2 ^ (H + 1) = 2 * 2 ^ H := by rw [pow_succ]; ring
    have hp3 : 1 ≤ 2 ^ H := Nat.one_le_two_pow
    simp only [mountainsHeights_nil, List.length_nil]
    omega
  | cons pb R' ih =>
    intro H h r hdec hK hh hhH hr
    obtain ⟨p, b⟩ := pb
    obtain ⟨_, hrest, hdec'⟩ := hdec
    have hpH : p < H := hK (p, b) (by simp)
    have hhp : h < p := hh (p, b) (by simp)
    have h1 := ih p h r hdec' hrest (fun q hq => hh q (by simp [hq])) hhp hr
    have hp1 : 2 ^ (p + 2) ≤ 2 ^ (H + 1) := Nat.pow_le_pow_right (by norm_num) (by omega)
    have hp2 : 2 ^ (p + 2) = 2 * 2 ^ (p + 1) := by rw [pow_succ]; ring
    have hp3 : 1 ≤ 2 ^ (p + 1) := Nat.one_le_two_pow
    rw [mountainsHeights_cons, List.length_append, mheights_length]
    omega

/-- Cross-mountain height computation: the greedy bitmap loop consumes the
complete mountains of `R` (strictly decreasing heights, all below the
candidate exponent `K`) and then computes, for a position `r` inside a yet
smaller mountain of height `h`, the height of the element at `r`. -/
theorem heights_bitmap_loop_mountains {F : Type} (K : Nat) :
    ∀ (R : List (Nat × List F)) (h r acc : Nat), DecMountains R →
    (∀ p ∈ R, p.1 < K) → (∀ p ∈ R, h < p.1) → h ≤ K → r < 2 ^ (h + 1) - 1 →
    (heights_bitmap_loop (2 ^ K - 1) ((mountainsHeights R).length + r) acc).2 =
      (mheights h).getD r 0 := by
  induction K with
  | zero =>
    intro R h r acc hdec hK hh hhK hr
    cases R with
    | nil => simpa [mountainsHeights_nil] using heights_bitmap_loop_mheights 0 h r acc hhK hr
    | cons pb R' => exact absurd (hK pb (by simp)) (by omega)
  | succ K ih =>
    intro R h r acc hdec hK hh hhK hr
    cases R with
    | nil => simpa [mountainsHeights_nil] using heights_bitmap_loop_mheights (K + 1) h r acc hhK hr
    | cons pb R' =>
      obtain ⟨p, b⟩ := pb
      obtain ⟨hblen, hrest, hdec'⟩ := hdec
      have hp1 : 1 ≤ 2 ^ (K + 1) := Nat.one_le_two_pow
      have hp2 : 2 ^ (K + 1) = 2 * 2 ^ K := by rw [pow_succ]; ring
      have hp4 : 1 ≤ 2 ^ K := Nat.one_le_two_pow
      have hdiv : (2 ^ (K + 1) - 1) / 2 = 2 ^ K - 1 := by omega
      have hpK : p < K + 1 := hK (p, b) (by simp)
      have hhp : h < p := hh (p, b) (by simp)
      have hlenc : (mountainsHeights ((p, b) :: R')).length =
          2 ^ (p + 1) - 1 + (mountainsHeights R').length := by
        rw [mountainsHeights_cons, List.length_append, mheights_length]
      rcases Nat.lt_or_ge p K with hpK' | hpK2
      · -- the candidate exceeds the whole remaining size: skip
        have hbound := dec_heights_r_le R' p h r hdec' hrest
          (fun q hq => hh q (by simp [hq])) hhp hr
        have hp5 : 2 ^ (p + 2) ≤ 2 ^ (K + 1) := Nat.pow_le_pow_right (by norm_num) (by omega)
        have hp6 : 2 ^ (p + 2) = 2 * 2 ^ (p + 1) := by rw [pow_succ]; ring
        have hp7 : 1 ≤ 2 ^ (p + 1) := Nat.one_le_two_pow
        rw [heights_bitmap_loop, dif_neg (by omega : ¬(2 ^ (K + 1) - 1 = 0)),
          if_neg (by omega), hdiv]
        exact ih ((p, b) :: R') h r (2 * acc) ⟨hblen, hrest, hdec'⟩
          (fun q hq => by
            rcases List.mem_cons.mp hq with hq1 | hq2
            · rw [hq1]; omega
            · have := hrest q hq2; omega)
          hh (by omega) hr
      · -- p = K: the candidate is exactly the head mountain: take it
        have hpe : p = K := by omega
        subst hpe
        have hbound := dec_heights_r_le R' p h r hdec' hrest
          (fun q hq => hh q (by simp [hq])) hhp hr
        rw [hlenc, heights_bitmap_loop, dif_neg (by omega : ¬(2 ^ (p + 1) - 1 = 0)),
          if_pos (by omega), hdiv,
          show 2 ^ (p + 1) - 1 + (mountainsHeights R').length + r - (2 ^ (p + 1) - 1) =
            (mountainsHeights R').length + r by omega]
        exact ih R' h r (2 * acc + 1) hdec'
          (fun q hq => by have := hrest q hq; omega) (fun q hq => hh q (by simp [hq]))
          (by omega) hr

theorem dec_leaves_lt {F : Type} (R : List (Nat × List F)) :
    ∀ H, DecMountains R → (∀ p ∈ R, p.1 < H) → stateLeaves R ≤ 2 ^ H - 1 := by
  induction R with
  | nil =>
    intro H _ _
    simp [stateLeaves_nil]
  | cons pb R' ih =>
    intro H hdec hlt
    obtain ⟨p, b⟩ := pb
    obtain ⟨_, hrest, hdec'⟩ := hdec
    rw [stateLeaves_cons]
    have h1 := ih p hdec' hrest
    have hpH : p < H := hlt (p, b) (by simp)
    have hp2 : 2 ^ (p + 1) ≤ 2 ^ H := Nat.pow_le_pow_right (by norm_num) (by omega)
    have hp3 : 2 ^ (p + 1) = 2 * 2 ^ p := by rw [pow_succ]; ring
    have hp4 : 1 ≤ 2 ^ p := Nat.one_le_two_pow
    omega

theorem dec_popcount {F : Type} (R : List (Nat × List F)) (hdec : DecMountains R) :
    popcount (stateLeaves R) = R.length := by
  induction R with
  | nil => simp [stateLeaves_nil, popcount_zero]
  | cons pb R' ih =>
    obtain ⟨p, b⟩ := pb
    obtain ⟨_, hrest, hdec'⟩ := hdec
    rw [stateLeaves_cons]
    have hlt := dec_leaves_lt R' p hdec' hrest
    have hp4 : 1 ≤ 2 ^ p := Nat.one_le_two_pow
    rw [popcount_two_pow_add p (stateLeaves R') (by omega), ih hdec']
    simp only [List.length_cons]
    omega

/-- The bitmap remainder of an MMR size that decomposes as complete mountains
of heights all above `H` followed by a position `r` inside a mountain of
height `H` is the height of the element at `r`. -/
theorem bitmap_snd_of_mountains {F : Type} (R : List (Nat × List F)) (H r : Nat)
    (hdec : DecMountains R) (hgt : ∀ p ∈ R, H < p.1) (hr : r < 2 ^ (H + 1) - 1) :
    (get_heights_bitmap_for_mmr_size ((mountainsHeights R).length + r)).2 =
      (mheights H).getD r 0 := by
  rcases Nat.eq_zero_or_pos ((mountainsHeights R).length + r) with h0 | hpos
  · have hr0 : r = 0 := by omega
    rw [get_heights_bitmap_for_mmr_size, if_pos h0, hr0, mheights_getD_zero]
  · obtain ⟨hb1, hlow, hhigh⟩ := bitlen_spec _ hpos
    rw [get_heights_bitmap_for_mmr_size, if_neg (by omega)]
    cases R with
    | nil =>
      simp only [mountainsHeights_nil, List.length_nil, Nat.zero_add] at hpos hb1 hlow hhigh ⊢
      rcases Nat.lt_or_ge (bitlen r) (H + 1) with hKH | hHK
      · rw [heights_bitmap_loop_mheights (bitlen r) (bitlen r) r 0 le_rfl (by omega)]
        exact (mheights_stable (bitlen r) H r (by omega) (by omega)).symm
      · exact heights_bitmap_loop_mheights (bitlen r) H r 0 (by omega) hr
    | cons pb R' =>
      obtain ⟨p, b⟩ := pb
      have hsz := list_mem_size_le_heights ((p, b) :: R') (p, b) (by simp)
      dsimp only at hsz
      have hKB : ∀ q ∈ (p, b) :: R', q.1 < bitlen ((mountainsHeights ((p, b) :: R')).length + r) := by
        intro q hq
        have hq1 := list_mem_size_le_heights ((p, b) :: R') q hq
        have h2 : 2 ^ (q.1 + 1) ≤ 2 ^ bitlen ((mountainsHeights ((p, b) :: R')).length + r) := by
          omega
        have := (Nat.pow_le_pow_iff_right (by norm_num : 1 < 2)).mp h2
        omega
      have hHp : H < p := hgt (p, b) (by simp)
      have hpK := hKB (p, b) (by simp)
      dsimp only at hpK
      exact heights_bitmap_loop_mountains _ ((p, b) :: R') H r 0 hdec hKB hgt
        (by omega) hr

/-- Splitting a strictly decreasing mountain list around a distinguished
mountain. -/
theorem dec_split {F : Type} (A : List (Nat × List F)) :
    ∀ (h : Nat) (b : List F) (B : List (Nat × List F)),
    DecMountains (A ++ (h, b) :: B) →
    DecMountains A ∧ (∀ p ∈ A, h < p.1) ∧ b.length = 2 ^ h ∧
      (∀ p ∈ B, p.1 < h) ∧ DecMountains B := by
  induction A with
  | nil =>
    intro h b B hdec
    obtain ⟨hlen, hall, hdecB⟩ := hdec
    exact ⟨trivial, by simp, hlen, hall, hdecB⟩
  | cons pb A' ih =>
    intro h b B hdec
    obtain ⟨q, c⟩ := pb
    obtain ⟨hlen', hall', hdec'⟩ := hdec
    obtain ⟨hA', hgtA', hblen, hltB, hdecB⟩ := ih h b B hdec'
    refine ⟨⟨hlen', fun p hp => hall' p (by simp [hp]), hA'⟩, ?_, hblen, hltB, hdecB⟩
    intro p hp
    rcases List.mem_cons.mp hp with hp1 | hp2
    · have h1 := hall' (h, b) (by simp)
      rw [hp1]
      simpa using h1
    · exact hgtA' p hp2

theorem dec_blocks {F : Type} (R : List (Nat × List F)) (hdec : DecMountains R) :
    ∀ p ∈ R, p.2.length = 2 ^ p.1 := by
  induction R with
  | nil => intro p hp; simp at hp
  | cons pb R' ih =>
    obtain ⟨h, b⟩ := pb
    obtain ⟨hlen, _, hdec'⟩ := hdec
    intro p hp
    rcases List.mem_cons.mp hp with hp1 | hp2
    · rw [hp1]; exact hlen
    · exact ih hdec' p hp2

/-- `nodePos` at height 0 is the source's `get_mmr_index` arithmetic: the
post-order position of leaf `k` is `2k - popcount k`. -/
theorem nodePos_zero_eq (H : Nat) : ∀ k, k < 2 ^ H → nodePos H k 0 = 2 * k - popcount k := by
  induction H with
  | zero =>
    intro k hk
    have hk0 : k = 0 := by omega
    subst hk0
    rw [nodePos]
    rw [popcount_zero]
  | succ H ih =>
    intro k hk
    rw [nodePos, if_neg (by omega)]
    rcases Nat.lt_or_ge k (2 ^ H) with hlt | hge
    · rw [if_pos hlt]
      exact ih k hlt
    · rw [if_neg (by omega)]
      have hp3 : 2 ^ (H + 1) = 2 * 2 ^ H := by rw [pow_succ]; ring
      have hk2 : k - 2 ^ H < 2 ^ H := by omega
      rw [ih (k - 2 ^ H) hk2]
      have hpc : popcount k = 1 + popcount (k - 2 ^ H) := by
        have h2 := popcount_two_pow_add H (k - 2 ^ H) hk2
        rw [show 2 ^ H + (k - 2 ^ H) = k by omega] at h2
        exact h2
      have hple := popcount_le (k - 2 ^ H)
      have hp4 : 1 ≤ 2 ^ H := Nat.one_le_two_pow
      omega

theorem blocks_length {F : Type} (R : List (Nat × List F))
    (hbl : ∀ p ∈ R, p.2.length = 2 ^ p.1) :
    (R.flatMap fun hb => hb.2).length = stateLeaves R := by
  induction R with
  | nil => rfl
  | cons pb R' ih =>
    obtain ⟨h, b⟩ := pb
    rw [List.flatMap_cons, stateLeaves_cons, List.length_append,
      ih (fun p hp => hbl p (by simp [hp]))]
    have h1 := hbl (h, b) (by simp)
    dsimp only at h1 ⊢
    omega

/-- Locating a position of a concatenation of blocks inside its block. -/
theorem flatMap_index_split {F : Type} [Zero F] (R : List (Nat × List F)) :
    ∀ k, k < (R.flatMap fun hb => hb.2).length →
    ∃ R₁ h b R₂ j, R = R₁ ++ (h, b) :: R₂ ∧ j < b.length ∧
      k = (R₁.flatMap fun hb => hb.2).length + j ∧
      (R.flatMap fun hb => hb.2).getD k 0 = b.getD j 0 := by
  induction R with
  | nil => intro k hk; simp at hk
  | cons pb R' ih =>
    intro k hk
    obtain ⟨h, b⟩ := pb
    rcases Nat.lt_or_ge k b.length with hlt | hge
    · refine ⟨[], h, b, R', k, by simp, hlt, by simp, ?_⟩
      rw [List.flatMap_cons, List.getD_append _ _ 0 _ hlt]
    · rw [List.flatMap_cons, List.length_append] at hk
      dsimp only at hk
      obtain ⟨R₁, h', b', R₂, j, hsplit, hj, hidx, hgetD⟩ :=
        ih (k - b.length) (by omega)
      refine ⟨(h, b) :: R₁, h', b', R₂, j, by rw [hsplit]; rfl, hj, ?_, ?_⟩
      · rw [List.flatMap_cons, List.length_append]
        dsimp only
        omega
      · rw [List.flatMap_cons, List.getD_append_right _ _ 0 _ hge, hgetD]

theorem mflat_getElem_last {F : Type} [Zero F] (hashNoPad : List F → HashOut F)
    (twoToOne : HashOut F → HashOut F → HashOut F) (h : Nat) (b : List F) :
    (mflat hashNoPad twoToOne h b)[2 ^ (h + 1) - 2]? =
      some (mdigest hashNoPad twoToOne h b) := by
  have h2 : 2 ≤ 2 ^ (h + 1) := by
    have : (2 : Nat) ^ 1 ≤ 2 ^ (h + 1) := Nat.pow_le_pow_right (by norm_num) (by omega)
    simpa using this
  have hlt : 2 ^ (h + 1) - 2 < (mflat hashNoPad twoToOne h b).length := by
    rw [mflat_length]; omega
  rw [List.getElem?_eq_getElem hlt, ← List.getD_eq_getElem _ ⟨0, 0, 0, 0⟩ hlt,
    mflat_getD_last]

theorem getD_offset {α : Type} (P L : List α) (i : Nat) (d : α) :
    (P ++ L).getD (P.length + i) d = L.getD i d := by
  rw [List.getD_append_right _ _ d _ (by omega),
    show P.length + i - P.length = i by omega]

theorem getElem_offset {α : Type} (P L : List α) (i : Nat) :
    (P ++ L)[P.length + i]? = L[i]? := by
  rw [List.getElem?_append_right (by omega : P.length ≤ P.length + i),
    show P.length + i - P.length = i by omega]

theorem mflat_getD_subroot {F : Type} [Zero F] (hashNoPad : List F → HashOut F)
    (twoToOne : HashOut F → HashOut F → HashOut F) (H : Nat) (b : List F)
    (d : HashOut F) :
    (mflat hashNoPad twoToOne (H + 1) b).getD (2 ^ (H + 2) - 3) d =
      mdigest hashNoPad twoToOne H (b.drop (2 ^ H)) := by
  have h2 : 2 ≤ 2 ^ (H + 1) := by
    have : (2 : Nat) ^ 1 ≤ 2 ^ (H + 1) := Nat.pow_le_pow_right (by norm_num) (by omega)
    simpa using this
  have hp3 : (2 : Nat) ^ (H + 2) = 2 * 2 ^ (H + 1) := by rw [pow_succ]; ring
  rw [mflat, List.append_assoc,
    List.getD_append_right _ _ d _ (by rw [mflat_length]; omega), mflat_length,
    show 2 ^ (H + 2) - 3 - (2 ^ (H + 1) - 1) = 2 ^ (H + 1) - 2 by omega,
    List.getD_append _ _ d _ (by rw [mflat_length]; omega), mflat_getD_last]

theorem mflat_getElem_subleft {F : Type} [Zero F] (hashNoPad : List F → HashOut F)
    (twoToOne : HashOut F → HashOut F → HashOut F) (H : Nat) (b : List F) :
    (mflat hashNoPad twoToOne (H + 1) b)[2 ^ (H + 1) - 2]? =
      some (mdigest hashNoPad twoToOne H (b.take (2 ^ H))) := by
  have h2 : 2 ≤ 2 ^ (H + 1) := by
    have : (2 : Nat) ^ 1 ≤ 2 ^ (H + 1) := Nat.pow_le_pow_right (by norm_num) (by omega)
    simpa using this
  rw [mflat, List.append_assoc,
    List.getElem?_append_left (by rw [mflat_length]; omega), mflat_getElem_last]

theorem add_right_elm_take {F : Type} [Zero F] (E : List (HashOut F))
    (curr height : Nat) (h0 : ¬(E.length = 0))
    (h1 : curr + (2 ^ (height + 1) - 1) < E.length - 1) :
    add_right_elm E curr height =
      some (some (E.getD (curr + (2 ^ (height + 1) - 1)) ⟨0, 0, 0, 0⟩,
        curr + (2 ^ (height + 1) - 1) + 1)) := by
  simp only [add_right_elm, if_neg h0, if_pos h1]

theorem add_right_elm_exit {F : Type} [Zero F] (E : List (HashOut F))
    (curr height : Nat) (h0 : ¬(E.length = 0))
    (h1 : ¬(curr + (2 ^ (height + 1) - 1) < E.length - 1)) :
    add_right_elm E curr height = some none := by
  simp only [add_right_elm, if_neg h0, if_neg h1]

theorem subtree_proof_loop_step_right {F : Type} [Zero F] (E : List (HashOut F))
    (fuel curr height : Nat) (acc : List (HashOut F × Bool)) (v : HashOut F)
    (h1 : 2 ^ (height + 1) - 1 ≤ curr)
    (h2 : (get_heights_bitmap_for_mmr_size (curr - (2 ^ (height + 1) - 1))).2 = height)
    (h3 : E[curr - (2 ^ (height + 1) - 1)]? = some v) :
    subtree_proof_loop E (fuel + 1) curr height acc =
      subtree_proof_loop E fuel (curr + 1) (height + 1) (acc ++ [(v, true)]) := by
  simp only [subtree_proof_loop, if_pos h1, h2, if_true, h3]

theorem subtree_proof_loop_step_sib_hi {F : Type} [Zero F] (E : List (HashOut F))
    (fuel curr height : Nat) (acc : List (HashOut F × Bool)) (v : HashOut F)
    (next : Nat)
    (h1 : 2 ^ (height + 1) - 1 ≤ curr)
    (h2 : ¬((get_heights_bitmap_for_mmr_size (curr - (2 ^ (height + 1) - 1))).2 = height))
    (h3 : add_right_elm E curr height = some (some (v, next))) :
    subtree_proof_loop E (fuel + 1) curr height acc =
      subtree_proof_loop E fuel next (height + 1) (acc ++ [(v, false)]) := by
  simp only [subtree_proof_loop, if_pos h1, if_neg h2, h3]

theorem subtree_proof_loop_step_sib_lo {F : Type} [Zero F] (E : List (HashOut F))
    (fuel curr height : Nat) (acc : List (HashOut F × Bool)) (v : HashOut F)
    (next : Nat)
    (h1 : ¬(2 ^ (height + 1) - 1 ≤ curr))
    (h3 : add_right_elm E curr height = some (some (v, next))) :
    subtree_proof_loop E (fuel + 1) curr height acc =
      subtree_proof_loop E fuel next (height + 1) (acc ++ [(v, false)]) := by
  simp only [subtree_proof_loop, if_neg h1, h3]

theorem subtree_proof_loop_exit_hi {F : Type} [Zero F] (E : List (HashOut F))
    (fuel curr height : Nat) (acc : List (HashOut F × Bool))
    (h1 : 2 ^ (height + 1) - 1 ≤ curr)
    (h2 : ¬((get_heights_bitmap_for_mmr_size (curr - (2 ^ (height + 1) - 1))).2 = height))
    (h3 : add_right_elm E curr height = some none) :
    subtree_proof_loop E (fuel + 1) curr height acc = some acc := by
  simp only [subtree_proof_loop, if_pos h1, if_neg h2, h3]

theorem subtree_proof_loop_exit_lo {F : Type} [Zero F] (E : List (HashOut F))
    (fuel curr height : Nat) (acc : List (HashOut F × Bool))
    (h1 : ¬(2 ^ (height + 1) - 1 ≤ curr))
    (h3 : add_right_elm E curr height = some none) :
    subtree_proof_loop E (fuel + 1) curr height acc = some acc := by
  simp only [subtree_proof_loop, if_neg h1, h3]

/-- Core of `get_subtree_proof_elm`: starting at the post-order position of
leaf `k` of a complete mountain of height `H` laid out after a prefix `P`
(whose last element, if any, is the root of a strictly taller mountain), the
`while intree` loop climbs to the mountain root in exactly `H` steps,
appending precisely the Merkle path of the leaf. -/
theorem subtree_climb {F : Type} [Zero F] (hashNoPad : List F → HashOut F)
    (twoToOne : HashOut F → HashOut F → HashOut F) (H : Nat) :
    ∀ (P S : List (HashOut F)) (b : List F) (k fuel : Nat)
      (acc : List (HashOut F × Bool)),
    b.length = 2 ^ H → k < 2 ^ H →
    (P = [] ∨ H ≤ (get_heights_bitmap_for_mmr_size (P.length - 1)).2) →
    (∀ r, r < 2 ^ (H + 1) - 1 →
      (get_heights_bitmap_for_mmr_size (P.length + r)).2 = (mheights H).getD r 0) →
    subtree_proof_loop (P ++ mflat hashNoPad twoToOne H b ++ S) (fuel + H)
        (P.length + nodePos H k 0) 0 acc =
      subtree_proof_loop (P ++ mflat hashNoPad twoToOne H b ++ S) fuel
        (P.length + (2 ^ (H + 1) - 2)) H
        (acc ++ mpath hashNoPad twoToOne H k b) := by
  induction H with
  | zero =>
    intro P S b k fuel acc hb hk hpre hin
    have hk0 : k = 0 := by omega
    subst hk0
    simp [nodePos, mpath]
  | succ H ih =>
    intro P S b k fuel acc hb hk hpre hin
    have hp1 : 1 ≤ 2 ^ H := Nat.one_le_two_pow
    have hp2 : (2 : Nat) ^ (H + 1) = 2 * 2 ^ H := by rw [pow_succ]; ring
    have hp3 : (2 : Nat) ^ (H + 2) = 2 * 2 ^ (H + 1) := by rw [pow_succ]; ring
    have hb12 : (2 : Nat) ^ (H + 1 + 1) = 2 ^ (H + 2) := rfl
    have hb1 : (b.take (2 ^ H)).length = 2 ^ H := by
      rw [List.length_take]; omega
    have hb2 : (b.drop (2 ^ H)).length = 2 ^ H := by
      rw [List.length_drop]; omega
    have hElen : (P ++ mflat hashNoPad twoToOne (H + 1) b ++ S).length =
        P.length + (2 ^ (H + 2) - 1) + S.length := by
      rw [List.length_append, List.length_append, mflat_length]
    have hmid : (mheights (H + 1)).getD (2 ^ (H + 1) - 2) 0 = H := by
      rw [mheights, List.append_assoc,
        List.getD_append _ _ 0 _ (by rw [mheights_length]; omega),
        mheights_getD_last]
    rcases Nat.lt_or_ge k (2 ^ H) with hkl | hkr
    · -- the leaf sits in the left submountain
      have hET : P ++ mflat hashNoPad twoToOne (H + 1) b ++ S =
          P ++ mflat hashNoPad twoToOne H (b.take (2 ^ H)) ++
            (mflat hashNoPad twoToOne H (b.drop (2 ^ H)) ++
              ([mdigest hashNoPad twoToOne (H + 1) b] ++ S)) := by
        rw [mflat]
        simp [List.append_assoc]
      have hstep := ih P
        (mflat hashNoPad twoToOne H (b.drop (2 ^ H)) ++
          ([mdigest hashNoPad twoToOne (H + 1) b] ++ S))
        (b.take (2 ^ H)) k (fuel + 1) acc hb1 hkl
        (hpre.imp id (fun h1 => by omega))
        (fun r hr => by
          rw [hin r (by omega)]
          exact mheights_stable H (H + 1) r (by omega) hr)
      rw [← hET] at hstep
      rw [show fuel + (H + 1) = fuel + 1 + H by omega,
        nodePos, if_neg (by omega), if_pos hkl, hstep]
      have hare : add_right_elm (P ++ mflat hashNoPad twoToOne (H + 1) b ++ S)
          (P.length + (2 ^ (H + 1) - 2)) H =
          some (some (mdigest hashNoPad twoToOne H (b.drop (2 ^ H)),
            P.length + (2 ^ (H + 2) - 2))) := by
        rw [add_right_elm_take _ _ _ (by rw [hElen]; omega) (by rw [hElen]; omega),
          show P.length + (2 ^ (H + 1) - 2) + (2 ^ (H + 1) - 1) =
            P.length + (2 ^ (H + 2) - 3) by omega,
          List.append_assoc, getD_offset,
          List.getD_append _ _ _ _ (by rw [mflat_length]; omega),
          mflat_getD_subroot,
          show P.length + (2 ^ (H + 2) - 3) + 1 = P.length + (2 ^ (H + 2) - 2) by omega]
      rcases Nat.eq_zero_or_pos P.length with hP0 | hP0
      · rw [subtree_proof_loop_step_sib_lo _ _ _ _ _ _ _ (by omega) hare,
          mpath, if_pos hkl, ← List.append_assoc]
      · have hPb : H + 1 ≤ (get_heights_bitmap_for_mmr_size (P.length - 1)).2 := by
          rcases hpre with h1 | h1
          · rw [h1] at hP0
            simp at hP0
          · exact h1
        rw [subtree_proof_loop_step_sib_hi _ _ _ _ _ _ _ (by omega)
            (by rw [show P.length + (2 ^ (H + 1) - 2) - (2 ^ (H + 1) - 1) =
                P.length - 1 by omega]
                omega) hare,
          mpath, if_pos hkl, ← List.append_assoc]
    · -- the leaf sits in the right submountain
      have hk2 : k - 2 ^ H < 2 ^ H := by omega
      have hET : P ++ mflat hashNoPad twoToOne (H + 1) b ++ S =
          (P ++ mflat hashNoPad twoToOne H (b.take (2 ^ H))) ++
            mflat hashNoPad twoToOne H (b.drop (2 ^ H)) ++
              ([mdigest hashNoPad twoToOne (H + 1) b] ++ S) := by
        rw [mflat]
        simp [List.append_assoc]
      have hlenP1 : (P ++ mflat hashNoPad twoToOne H (b.take (2 ^ H))).length =
          P.length + (2 ^ (H + 1) - 1) := by
        rw [List.length_append, mflat_length]
      have hstep := ih (P ++ mflat hashNoPad twoToOne H (b.take (2 ^ H)))
        ([mdigest hashNoPad twoToOne (H + 1) b] ++ S)
        (b.drop (2 ^ H)) (k - 2 ^ H) (fuel + 1) acc hb2 hk2
        (Or.inr (by
          rw [hlenP1,
            show P.length + (2 ^ (H + 1) - 1) - 1 = P.length + (2 ^ (H + 1) - 2) by omega,
            hin (2 ^ (H + 1) - 2) (by omega), hmid]))
        (fun r hr => by
          rw [hlenP1,
            show P.length + (2 ^ (H + 1) - 1) + r = P.length + (2 ^ (H + 1) - 1 + r) by omega,
            hin (2 ^ (H + 1) - 1 + r) (by omega),
            mheights, List.append_assoc,
            List.getD_append_right _ _ 0 _ (by rw [mheights_length]; omega),
            mheights_length,
            show 2 ^ (H + 1) - 1 + r - (2 ^ (H + 1) - 1) = r by omega,
            List.getD_append _ _ 0 _ (by rw [mheights_length]; omega)])
      rw [← hET, hlenP1] at hstep
      rw [show fuel + (H + 1) = fuel + 1 + H by omega,
        nodePos, if_neg (by omega), if_neg (by omega),
        show P.length + (2 ^ (H + 1) - 1 + nodePos H (k - 2 ^ H) 0) =
          P.length + (2 ^ (H + 1) - 1) + nodePos H (k - 2 ^ H) 0 by omega,
        hstep,
        show P.length + (2 ^ (H + 1) - 1) + (2 ^ (H + 1) - 2) =
          P.length + (2 ^ (H + 2) - 3) by omega]
      have hbit : (get_heights_bitmap_for_mmr_size
          (P.length + (2 ^ (H + 2) - 3) - (2 ^ (H + 1) - 1))).2 = H := by
        rw [show P.length + (2 ^ (H + 2) - 3) - (2 ^ (H + 1) - 1) =
            P.length + (2 ^ (H + 1) - 2) by omega,
          hin (2 ^ (H + 1) - 2) (by omega), hmid]
      have hgel : (P ++ mflat hashNoPad twoToOne (H + 1) b ++ S)[
          P.length + (2 ^ (H + 2) - 3) - (2 ^ (H + 1) - 1)]? =
          some (mdigest hashNoPad twoToOne H (b.take (2 ^ H))) := by
        rw [show P.length + (2 ^ (H + 2) - 3) - (2 ^ (H + 1) - 1) =
            P.length + (2 ^ (H + 1) - 2) by omega,
          List.append_assoc, getElem_offset,
          List.getElem?_append_left (by rw [mflat_length]; omega),
          mflat_getElem_subleft]
      rw [subtree_proof_loop_step_right _ _ _ _ _ _ (by omega) hbit hgel,
        show P.length + (2 ^ (H + 2) - 3) + 1 = P.length + (2 ^ (H + 2) - 2) by omega,
        mpath, if_neg (by omega), ← List.append_assoc]

/-- At the mountain root the loop exits: no taller left sibling is recorded
before the mountain, and the elements after it are too few to hold a right
sibling. -/
theorem subtree_exit {F : Type} [Zero F] (hashNoPad : List F → HashOut F)
    (twoToOne : HashOut F → HashOut F → HashOut F) (H : Nat) (P S : List (HashOut F))
    (b : List F) (fuel : Nat) (acc : List (HashOut F × Bool))
    (hS : S.length ≤ 2 ^ (H + 1) - 2)
    (hpre : P = [] ∨ H + 1 ≤ (get_heights_bitmap_for_mmr_size (P.length - 1)).2) :
    subtree_proof_loop (P ++ mflat hashNoPad twoToOne H b ++ S) (fuel + 1)
      (P.length + (2 ^ (H + 1) - 2)) H acc = some acc := by
  have h2 : 2 ≤ 2 ^ (H + 1) := by
    have : (2 : Nat) ^ 1 ≤ 2 ^ (H + 1) := Nat.pow_le_pow_right (by norm_num) (by omega)
    simpa using this
  have hp3 : (2 : Nat) ^ (H + 2) = 2 * 2 ^ (H + 1) := by rw [pow_succ]; ring
  have hElen : (P ++ mflat hashNoPad twoToOne H b ++ S).length =
      P.length + (2 ^ (H + 1) - 1) + S.length := by
    rw [List.length_append, List.length_append, mflat_length]
  have hare : add_right_elm (P ++ mflat hashNoPad twoToOne H b ++ S)
      (P.length + (2 ^ (H + 1) - 2)) H = some none := by
    apply add_right_elm_exit
    · rw [hElen]; omega
    · rw [hElen]; omega
  rcases Nat.eq_zero_or_pos P.length with hP0 | hP0
  · exact subtree_proof_loop_exit_lo _ _ _ _ _ (by omega) hare
  · have hPb : H + 1 ≤ (get_heights_bitmap_for_mmr_size (P.length - 1)).2 := by
      rcases hpre with h1 | h1
      · rw [h1] at hP0
        simp at hP0
      · exact h1
    exact subtree_proof_loop_exit_hi _ _ _ _ _ (by omega)
      (by rw [show P.length + (2 ^ (H + 1) - 2) - (2 ^ (H + 1) - 1) =
          P.length - 1 by omega]
          omega) hare

/-- Folding `verify`'s merge step over the Merkle path of leaf `k` recomputes
the mountain digest. -/
theorem mpath_fold {F : Type} [Zero F] (hashNoPad : List F → HashOut F)
    (twoToOne : HashOut F → HashOut F → HashOut F) (H : Nat) :
    ∀ (b : List F) (k : Nat), b.length = 2 ^ H → k < 2 ^ H →
    (mpath hashNoPad twoToOne H k b).foldl
      (fun next_hash sib => if sib.2 then twoToOne sib.1 next_hash
        else twoToOne next_hash sib.1)
      (hash_or_noop hashNoPad [b.getD k 0]) = mdigest hashNoPad twoToOne H b := by
  induction H with
  | zero =>
    intro b k hb hk
    have hk0 : k = 0 := by omega
    subst hk0
    simp only [mpath, List.foldl_nil, mdigest]
    cases b with
    | nil => rfl
    | cons x xs => rfl
  | succ H ih =>
    intro b k hb hk
    have hp1 : 1 ≤ 2 ^ H := Nat.one_le_two_pow
    have hp2 : (2 : Nat) ^ (H + 1) = 2 * 2 ^ H := by rw [pow_succ]; ring
    have hb1 : (b.take (2 ^ H)).length = 2 ^ H := by rw [List.length_take]; omega
    have hb2 : (b.drop (2 ^ H)).length = 2 ^ H := by rw [List.length_drop]; omega
    rcases Nat.lt_or_ge k (2 ^ H) with hkl | hkr
    · have hget : b.getD k 0 = (b.take (2 ^ H)).getD k 0 := by
        rw [List.getD_eq_getElem?_getD, List.getD_eq_getElem?_getD,
          List.getElem?_take, if_pos hkl]
      rw [mpath, if_pos hkl, List.foldl_append, hget,
        ih (b.take (2 ^ H)) k hb1 hkl, List.foldl_cons, List.foldl_nil, mdigest]
      simp
    · have hget : b.getD k 0 = (b.drop (2 ^ H)).getD (k - 2 ^ H) 0 := by
        rw [List.getD_eq_getElem?_getD, List.getD_eq_getElem?_getD, List.getElem?_drop,
          show 2 ^ H + (k - 2 ^ H) = k by omega]
      rw [mpath, if_neg (by omega), List.foldl_append, hget,
        ih (b.drop (2 ^ H)) (k - 2 ^ H) hb2 (by omega), List.foldl_cons,
        List.foldl_nil, mdigest]
      simp

/-- The cascading-merge loop only ever appends to the element list. -/
theorem add_leaf_loop_grow {F : Type} [Zero F]
    (twoToOne : HashOut F → HashOut F → HashOut F) (peaks : Nat) :
    ∀ height current_pos (nh : HashOut F) elements, ∃ t,
      add_leaf_loop twoToOne peaks height current_pos nh elements = elements ++ t := by
  induction peaks using Nat.strong_induction_on with
  | _ peaks ih =>
    intro height current_pos nh elements
    rw [add_leaf_loop]
    by_cases h0 : peaks = 0
    · subst h0
      exact ⟨[], by simp⟩
    · rw [dif_neg h0]
      by_cases h1 : peaks % 2 = 1
      · rw [if_pos h1]
        obtain ⟨t, ht⟩ := ih (peaks / 2) (by omega) (height + 1) (current_pos + 1)
          (twoToOne (elements.getD (current_pos - (2 ^ height - 1)) ⟨0, 0, 0, 0⟩) nh)
          (elements ++
            [twoToOne (elements.getD (current_pos - (2 ^ height - 1)) ⟨0, 0, 0, 0⟩) nh])
        exact ⟨[twoToOne (elements.getD (current_pos - (2 ^ height - 1)) ⟨0, 0, 0, 0⟩) nh]
            ++ t, ht.trans (List.append_assoc _ _ _)⟩
      · rw [if_neg h1]
        exact ⟨[], by simp⟩

/-- `add_leaf` only appends: the old element list is a prefix of the new one. -/
theorem add_leaf_grow {F : Type} [Zero F] (hashNoPad : List F → HashOut F)
    (twoToOne : HashOut F → HashOut F → HashOut F) (m : MMR F) (x : F) :
    ∃ t, (m.add_leaf hashNoPad twoToOne x).elements = m.elements ++ t := by
  rw [MMR.add_leaf]
  by_cases hemp : m.elements.isEmpty = true
  · rw [if_pos hemp]
    have hnil : m.elements = [] := List.isEmpty_iff.mp hemp
    exact ⟨[hash_or_noop hashNoPad [x]], by simp [hnil]⟩
  · rw [if_neg hemp]
    obtain ⟨t, ht⟩ := add_leaf_loop_grow twoToOne
      ((get_heights_bitmap_for_mmr_size m.elements.length).1) 1 m.elements.length
      (hash_or_noop hashNoPad [x]) (m.elements ++ [hash_or_noop hashNoPad [x]])
    exact ⟨[hash_or_noop hashNoPad [x]] ++ t, ht.trans (List.append_assoc _ _ _)⟩

/-- Growth only appends across any further insertion sequence. -/
theorem buildMMR_grow {F : Type} [Zero F] (hashNoPad : List F → HashOut F)
    (twoToOne : HashOut F → HashOut F → HashOut F) (ls more : List F) :
    ∃ t, (buildMMR hashNoPad twoToOne (ls ++ more)).elements =
      (buildMMR hashNoPad twoToOne ls).elements ++ t := by
  induction more using List.reverseRecOn with
  | nil => exact ⟨[], by simp⟩
  | append_singleton ms x ih =>
    obtain ⟨t, ht⟩ := ih
    obtain ⟨t2, ht2⟩ := add_leaf_grow hashNoPad twoToOne
      (buildMMR hashNoPad twoToOne (ls ++ ms)) x
    refine ⟨t ++ t2, ?_⟩
    rw [show ls ++ (ms ++ [x]) = ls ++ ms ++ [x] by rw [List.append_assoc],
      buildMMR, List.foldl_append, List.foldl_cons, List.foldl_nil, ← buildMMR,
      ht2, ht, List.append_assoc]

/-- Completeness on a built accumulator (shared worker for the claims below):
the proof requested at the flat index of the `k`-th inserted leaf is returned,
and verifies the inserted value against the bagged root. -/
theorem mmr_completeness {F : Type} [DecidableEq F] [Zero F]
    (hashNoPad : List F → HashOut F) (twoToOne : HashOut F → HashOut F → HashOut F)
    (ls : List F) (k : Nat) (hk : k < ls.length) :
    ∃ (pr : MMR_proof F) (root : HashOut F),
      (buildMMR hashNoPad twoToOne ls).get_proof (get_mmr_index k) = some pr ∧
      (buildMMR hashNoPad twoToOne ls).bagging_the_peaks hashNoPad = some root ∧
      pr.verify hashNoPad twoToOne (ls.getD k 0) root = some true := by
  obtain ⟨hbuild, hwf, hcount, hleaves⟩ := buildMMR_state hashNoPad twoToOne ls
  have hdec : DecMountains (counterState F ls).reverse := dec_of_wf _ hwf
  have hlsR : ((counterState F ls).reverse.flatMap fun hb => hb.2) = ls := hleaves
  have hkR : k < ((counterState F ls).reverse.flatMap fun hb => hb.2).length := by
    rw [hlsR]; exact hk
  obtain ⟨R₁, H, b, R₂, j, hsplit, hj, hidx, hgetD⟩ :=
    flatMap_index_split (counterState F ls).reverse k hkR
  obtain ⟨hdec₁, hgt₁, hbH, hlt₂, hdec₂⟩ := dec_split R₁ H b R₂ (hsplit ▸ hdec)
  have hjH : j < 2 ^ H := by rw [hbH] at hj; exact hj
  have hN₁ : (R₁.flatMap fun hb => hb.2).length = stateLeaves R₁ :=
    blocks_length R₁ (dec_blocks R₁ hdec₁)
  obtain ⟨q, hq⟩ : 2 ^ (H + 1) ∣ stateLeaves R₁ :=
    wf_leaves_dvd R₁ (H + 1) (fun p hp => hgt₁ p hp)
  have hp2 : (2 : Nat) ^ (H + 1) = 2 * 2 ^ H := by rw [pow_succ]; ring
  have hpcq : popcount (stateLeaves R₁) = popcount q := by
    rw [hq, show 2 ^ (H + 1) * q = q * 2 ^ (H + 1) + 0 by ring,
      popcount_mul_pow_add (H + 1) q 0 Nat.one_le_two_pow, popcount_zero]
    omega
  have hpck : popcount k = R₁.length + popcount j := by
    rw [hidx, hN₁, hq, show 2 ^ (H + 1) * q + j = q * 2 ^ (H + 1) + j by ring,
      popcount_mul_pow_add (H + 1) q j (by omega)]
    have h2 := dec_popcount R₁ hdec₁
    rw [hpcq] at h2
    omega
  have hMF : (mountainsFlat hashNoPad twoToOne R₁).length =
      2 * stateLeaves R₁ - R₁.length := by
    rw [mountainsFlat_length, sum_mountain_sizes]
  have hposition : get_mmr_index k =
      (mountainsFlat hashNoPad twoToOne R₁).length + nodePos H j 0 := by
    rw [get_mmr_index_eq, nodePos_zero_eq H j hjH, hMF]
    have h1 := popcount_le j
    have h2 := stateLeaves_ge_length R₁
    have h3 : k = stateLeaves R₁ + j := by rw [hidx, hN₁]
    omega
  have hlay : stateLayout hashNoPad twoToOne (counterState F ls) =
      mountainsFlat hashNoPad twoToOne R₁ ++ mflat hashNoPad twoToOne H b ++
        mountainsFlat hashNoPad twoToOne R₂ := by
    rw [stateLayout, hsplit, mountainsFlat_append, mountainsFlat_cons,
      List.append_assoc]
  have hin : ∀ r, r < 2 ^ (H + 1) - 1 →
      (get_heights_bitmap_for_mmr_size
        ((mountainsFlat hashNoPad twoToOne R₁).length + r)).2 =
        (mheights H).getD r 0 := by
    intro r hr
    rw [← heights_flat_length hashNoPad twoToOne R₁]
    exact bitmap_snd_of_mountains R₁ H r hdec₁ hgt₁ hr
  have hroots : R₁ = [] ∨ H + 1 ≤ (get_heights_bitmap_for_mmr_size
      ((mountainsFlat hashNoPad twoToOne R₁).length - 1)).2 := by
    rcases List.eq_nil_or_concat R₁ with h1 | ⟨A, qc, h1⟩
    · exact Or.inl h1
    · right
      obtain ⟨qh, qb⟩ := qc
      rw [List.concat_eq_append] at h1
      obtain ⟨hdecA, hgtA, hqb, _, _⟩ := dec_split A qh qb [] (h1 ▸ hdec₁)
      have hqH : H < qh := hgt₁ (qh, qb) (by rw [h1]; simp)
      have h2q : 2 ≤ 2 ^ (qh + 1) := by
        have : (2 : Nat) ^ 1 ≤ 2 ^ (qh + 1) :=
          Nat.pow_le_pow_right (by norm_num) (by omega)
        simpa using this
      have hlen1 : (mountainsFlat hashNoPad twoToOne R₁).length - 1 =
          (mountainsHeights A).length + (2 ^ (qh + 1) - 2) := by
        rw [h1, mountainsFlat_append, mountainsFlat_cons, mountainsFlat_nil,
          List.append_nil, List.length_append, mflat_length,
          heights_flat_length hashNoPad twoToOne A]
        omega
      rw [hlen1, bitmap_snd_of_mountains A qh (2 ^ (qh + 1) - 2) hdecA hgtA (by omega),
        mheights_getD_last]
      omega
  have hpreC : mountainsFlat hashNoPad twoToOne R₁ = [] ∨
      H ≤ (get_heights_bitmap_for_mmr_size
        ((mountainsFlat hashNoPad twoToOne R₁).length - 1)).2 :=
    hroots.imp (fun h1 => by rw [h1, mountainsFlat_nil]) (fun h1 => by omega)
  have hpreE : mountainsFlat hashNoPad twoToOne R₁ = [] ∨
      H + 1 ≤ (get_heights_bitmap_for_mmr_size
        ((mountainsFlat hashNoPad twoToOne R₁).length - 1)).2 :=
    hroots.imp (fun h1 => by rw [h1, mountainsFlat_nil]) id
  have hS : (mountainsFlat hashNoPad twoToOne R₂).length ≤ 2 ^ (H + 1) - 2 :=
    dec_flat_le hashNoPad twoToOne R₂ H hdec₂ hlt₂
  have hstne : counterState F ls ≠ [] := by
    intro h0
    rw [h0, stateLeaves_nil] at hcount
    omega
  have hpeaks := get_peaks_canonical hashNoPad twoToOne (counterState F ls) hwf hstne
  have hfit : H + 1 < 2 ^ (H + 1) := Nat.lt_two_pow (H + 1)
  have hlenL : (stateLayout hashNoPad twoToOne (counterState F ls)).length =
      (mountainsFlat hashNoPad twoToOne R₁).length + (2 ^ (H + 1) - 1) +
        (mountainsFlat hashNoPad twoToOne R₂).length := by
    rw [hlay, List.length_append, List.length_append, mflat_length]
  have hsub : MMR.get_subtree_proof_elm
      ⟨stateLayout hashNoPad twoToOne (counterState F ls)⟩ (get_mmr_index k) =
      some (mpath hashNoPad twoToOne H j b) := by
    show subtree_proof_loop (stateLayout hashNoPad twoToOne (counterState F ls))
      (get_mmr_index k + (stateLayout hashNoPad twoToOne (counterState F ls)).length + 2)
      (get_mmr_index k) 0 [] = some (mpath hashNoPad twoToOne H j b)
    rw [hposition, hlenL, hlay]
    set M := (mountainsFlat hashNoPad twoToOne R₁).length + nodePos H j 0 +
      ((mountainsFlat hashNoPad twoToOne R₁).length + (2 ^ (H + 1) - 1) +
        (mountainsFlat hashNoPad twoToOne R₂).length) + 2 with hM
    rw [show M = M - H - 1 + 1 + H by omega]
    rw [subtree_climb hashNoPad twoToOne H (mountainsFlat hashNoPad twoToOne R₁)
      (mountainsFlat hashNoPad twoToOne R₂) b j (M - H - 1 + 1) [] hbH hjH hpreC hin]
    rw [subtree_exit hashNoPad twoToOne H (mountainsFlat hashNoPad twoToOne R₁)
      (mountainsFlat hashNoPad twoToOne R₂) b (M - H - 1)
      ([] ++ mpath hashNoPad twoToOne H j b) hS hpreE]
    rw [List.nil_append]
  have hproof : MMR.get_proof ⟨stateLayout hashNoPad twoToOne (counterState F ls)⟩
      (get_mmr_index k) =
      some ⟨(stateLayout hashNoPad twoToOne (counterState F ls)).length,
        mpath hashNoPad twoToOne H j b,
        mountainsPeaks hashNoPad twoToOne (counterState F ls).reverse⟩ := by
    simp only [MMR.get_proof, hsub, hpeaks]
  have hbag : MMR.bagging_the_peaks hashNoPad
      ⟨stateLayout hashNoPad twoToOne (counterState F ls)⟩ =
      some (hash_or_noop hashNoPad ((mountainsPeaks hashNoPad twoToOne
        (counterState F ls).reverse).flatMap HashOut.toList)) := by
    simp only [MMR.bagging_the_peaks, hpeaks, Option.map_some']
  have hmem : mdigest hashNoPad twoToOne H b ∈
      mountainsPeaks hashNoPad twoToOne (counterState F ls).reverse := by
    rw [hsplit]
    show mdigest hashNoPad twoToOne H b ∈
      (R₁ ++ (H, b) :: R₂).map fun hb => mdigest hashNoPad twoToOne hb.1 hb.2
    have hmemb : (H, b) ∈ R₁ ++ (H, b) :: R₂ := by simp
    exact List.mem_map_of_mem _ hmemb
  have hleafval : ls.getD k 0 = b.getD j 0 := by rw [← hlsR]; exact hgetD
  have hrec := mpath_fold hashNoPad twoToOne H b j hbH hjH
  refine ⟨⟨(stateLayout hashNoPad twoToOne (counterState F ls)).length,
      mpath hashNoPad twoToOne H j b,
      mountainsPeaks hashNoPad twoToOne (counterState F ls).reverse⟩,
    hash_or_noop hashNoPad ((mountainsPeaks hashNoPad twoToOne
      (counterState F ls).reverse).flatMap HashOut.toList), ?_, ?_, ?_⟩
  · rw [hbuild]
    exact hproof
  · rw [hbuild]
    exact hbag
  · simp only [MMR_proof.verify, MMR_proof.recomputed_hash, hleafval, hrec]
    rw [if_pos hmem]
    simp

theorem nodePos_le (H : Nat) : ∀ k j, nodePos H k j ≤ 2 ^ (H + 1) - 2 := by
  induction H with
  | zero =>
    intro k j
    rw [nodePos]
    omega
  | succ H ih =>
    intro k j
    have hp2 : (2 : Nat) ^ (H + 1) = 2 * 2 ^ H := by rw [pow_succ]; ring
    have hp3 : (2 : Nat) ^ (H + 2) = 2 * 2 ^ (H + 1) := by rw [pow_succ]; ring
    have hp1 : 1 ≤ 2 ^ H := Nat.one_le_two_pow
    rw [nodePos]
    split_ifs with h1 h2
    · omega
    · have := ih k j
      omega
    · have := ih (k - 2 ^ H) j
      omega

/-- The height-0 positions of a mountain's post-order layout are exactly the
positions of its leaves. -/
theorem mheights_getD_zero_iff (H : Nat) : ∀ r, r < 2 ^ (H + 1) - 1 →
    ((mheights H).getD r 0 = 0 ↔ ∃ k, k < 2 ^ H ∧ r = nodePos H k 0) := by
  induction H with
  | zero =>
    intro r hr
    have hr0 : r = 0 := by omega
    subst hr0
    constructor
    · intro _
      exact ⟨0, by omega, by rw [nodePos]⟩
    · intro _
      rfl
  | succ H ih =>
    intro r hr
    have hp2 : (2 : Nat) ^ (H + 1) = 2 * 2 ^ H := by rw [pow_succ]; ring
    have hp3 : (2 : Nat) ^ (H + 2) = 2 * 2 ^ (H + 1) := by rw [pow_succ]; ring
    have hp1 : 1 ≤ 2 ^ H := Nat.one_le_two_pow
    rcases Nat.lt_or_ge r (2 ^ (H + 1) - 1) with h1 | h2
    · rw [mheights_stable H (H + 1) r (by omega) h1, ih r h1]
      constructor
      · rintro ⟨k, hk, hrk⟩
        exact ⟨k, by omega, by rw [nodePos, if_neg (by omega), if_pos hk]; exact hrk⟩
      · rintro ⟨k, hk, hrk⟩
        rcases Nat.lt_or_ge k (2 ^ H) with hkl | hkr
        · rw [nodePos, if_neg (by omega), if_pos hkl] at hrk
          exact ⟨k, hkl, hrk⟩
        · rw [nodePos, if_neg (by omega), if_neg (by omega)] at hrk
          exact absurd hrk (by omega)
    · rcases Nat.lt_or_ge r (2 ^ (H + 2) - 2) with h3 | h4
      · have hgd : (mheights (H + 1)).getD r 0 =
            (mheights H).getD (r - (2 ^ (H + 1) - 1)) 0 := by
          rw [mheights, List.append_assoc,
            List.getD_append_right _ _ 0 _ (by rw [mheights_length]; omega),
            mheights_length,
            List.getD_append _ _ 0 _ (by rw [mheights_length]; omega)]
        rw [hgd, ih (r - (2 ^ (H + 1) - 1)) (by omega)]
        constructor
        · rintro ⟨k, hk, hrk⟩
          refine ⟨2 ^ H + k, by omega, ?_⟩
          rw [nodePos, if_neg (by omega), if_neg (by omega),
            show 2 ^ H + k - 2 ^ H = k by omega, ← hrk]
          omega
        · rintro ⟨k, hk, hrk⟩
          rcases Nat.lt_or_ge k (2 ^ H) with hkl | hkr
          · rw [nodePos, if_neg (by omega), if_pos hkl] at hrk
            have := nodePos_le H k 0
            exact absurd hrk (by omega)
          · rw [nodePos, if_neg (by omega), if_neg (by omega)] at hrk
            exact ⟨k - 2 ^ H, by omega, by omega⟩
      · have hre : r = 2 ^ (H + 2) - 2 := by omega
        subst hre
        rw [show (2 : Nat) ^ (H + 2) - 2 = 2 ^ (H + 1 + 1) - 2 by norm_num,
          mheights_getD_last]
        constructor
        · intro hc
          exact absurd hc (by omega)
        · rintro ⟨k, hk, hrk⟩
          exfalso
          rcases Nat.lt_or_ge k (2 ^ H) with hkl | hkr
          · rw [nodePos, if_neg (by omega), if_pos hkl] at hrk
            have := nodePos_le H k 0
            omega
          · rw [nodePos, if_neg (by omega), if_neg (by omega)] at hrk
            have := nodePos_le H (k - 2 ^ H) 0
            omega

/-- Locating a flat position inside its mountain of the decomposition. -/
theorem mountainsHeights_index_split {F : Type} (R : List (Nat × List F)) :
    ∀ i, i < (mountainsHeights R).length →
    ∃ R₁ h b R₂ r, R = R₁ ++ (h, b) :: R₂ ∧ r < 2 ^ (h + 1) - 1 ∧
      i = (mountainsHeights R₁).length + r ∧
      (mountainsHeights R).getD i 0 = (mheights h).getD r 0 := by
  induction R with
  | nil =>
    intro i hi
    simp [mountainsHeights_nil] at hi
  | cons pb R' ih =>
    intro i hi
    obtain ⟨h, b⟩ := pb
    rw [mountainsHeights_cons, List.length_append, mheights_length] at hi
    rcases Nat.lt_or_ge i (2 ^ (h + 1) - 1) with hlt | hge
    · refine ⟨[], h, b, R', i, rfl, hlt, by simp [mountainsHeights_nil], ?_⟩
      rw [mountainsHeights_cons,
        List.getD_append _ _ 0 _ (by rw [mheights_length]; omega)]
    · obtain ⟨R₁, h', b', R₂, r, hsp, hr, hi2, hgd⟩ :=
        ih (i - (2 ^ (h + 1) - 1)) (by omega)
      refine ⟨(h, b) :: R₁, h', b', R₂, r, by rw [hsp]; rfl, hr, ?_, ?_⟩
      · rw [mountainsHeights_cons, List.length_append, mheights_length]
        omega
      · rw [mountainsHeights_cons,
          List.getD_append_right _ _ 0 _ (by rw [mheights_length]; omega),
          mheights_length, hgd]

theorem stateLeaves_reverse {F : Type} (st : List (Nat × List F)) :
    stateLeaves st.reverse = stateLeaves st := by
  rw [stateLeaves, stateLeaves, List.map_reverse, List.sum_reverse]

theorem stateLeaves_append {F : Type} (A B : List (Nat × List F)) :
    stateLeaves (A ++ B) = stateLeaves A + stateLeaves B := by
  rw [stateLeaves, stateLeaves, stateLeaves, List.map_append, List.sum_append]

/-- The flat index of leaf number `stateLeaves R₁ + k₀` (taller mountains `R₁`
before it) is the layout offset of `R₁` plus the in-mountain post-order leaf
position. -/
theorem leaf_flat_position {F : Type} [Zero F] (hashNoPad : List F → HashOut F)
    (twoToOne : HashOut F → HashOut F → HashOut F) (R₁ : List (Nat × List F))
    (H k₀ : Nat) (hdec₁ : DecMountains R₁) (hgt₁ : ∀ p ∈ R₁, H < p.1)
    (hk₀ : k₀ < 2 ^ H) :
    get_mmr_index (stateLeaves R₁ + k₀) =
      (mountainsFlat hashNoPad twoToOne R₁).length + nodePos H k₀ 0 := by
  obtain ⟨q, hq⟩ : 2 ^ (H + 1) ∣ stateLeaves R₁ :=
    wf_leaves_dvd R₁ (H + 1) (fun p hp => hgt₁ p hp)
  have hp2 : (2 : Nat) ^ (H + 1) = 2 * 2 ^ H := by rw [pow_succ]; ring
  have hpcq : popcount (stateLeaves R₁) = popcount q := by
    rw [hq, show 2 ^ (H + 1) * q = q * 2 ^ (H + 1) + 0 by ring,
      popcount_mul_pow_add (H + 1) q 0 Nat.one_le_two_pow, popcount_zero]
    omega
  have hpck : popcount (stateLeaves R₁ + k₀) = R₁.length + popcount k₀ := by
    rw [hq, show 2 ^ (H + 1) * q + k₀ = q * 2 ^ (H + 1) + k₀ by ring,
      popcount_mul_pow_add (H + 1) q k₀ (by omega)]
    have h2 := dec_popcount R₁ hdec₁
    rw [hpcq] at h2
    omega
  have hMF : (mountainsFlat hashNoPad twoToOne R₁).length =
      2 * stateLeaves R₁ - R₁.length := by
    rw [mountainsFlat_length, sum_mountain_sizes]
  rw [get_mmr_index_eq, nodePos_zero_eq H k₀ hk₀, hMF]
  have h1 := popcount_le k₀
  have h2 := stateLeaves_ge_length R₁
  omega

/-- Every flat index of height 0 (in the source's own height arithmetic) is
the flat index of some inserted leaf. -/
theorem leaf_position_inverse {F : Type} [Zero F] (hashNoPad : List F → HashOut F)
    (twoToOne : HashOut F → HashOut F → HashOut F) (ls : List F) (i : Nat)
    (hi : i < (buildMMR hashNoPad twoToOne ls).elements.length)
    (h0 : (get_heights_bitmap_for_mmr_size i).2 = 0) :
    ∃ k, k < ls.length ∧ i = get_mmr_index k := by
  obtain ⟨hbuild, hwf, hcount, hleaves⟩ := buildMMR_state hashNoPad twoToOne ls
  have hdec : DecMountains (counterState F ls).reverse := dec_of_wf _ hwf
  rw [hbuild] at hi
  have hiH : i < (mountainsHeights (counterState F ls).reverse).length := by
    rw [heights_flat_length hashNoPad twoToOne]
    exact hi
  obtain ⟨R₁, H, b, R₂, r, hsp, hr, hi2, hgd⟩ :=
    mountainsHeights_index_split (counterState F ls).reverse i hiH
  obtain ⟨hdec₁, hgt₁, hbH, hlt₂, hdec₂⟩ := dec_split R₁ H b R₂ (hsp ▸ hdec)
  have hbm : (mheights H).getD r 0 = 0 := by
    rw [← bitmap_snd_of_mountains R₁ H r hdec₁ hgt₁ hr, ← hi2, h0]
  obtain ⟨k₀, hk₀, hrk⟩ := (mheights_getD_zero_iff H r hr).mp hbm
  refine ⟨stateLeaves R₁ + k₀, ?_, ?_⟩
  · have hrev : stateLeaves ((counterState F ls).reverse) = ls.length := by
      rw [stateLeaves_reverse, hcount]
    rw [hsp, stateLeaves_append, stateLeaves_cons] at hrev
    omega
  · rw [leaf_flat_position hashNoPad twoToOne R₁ H k₀ hdec₁ hgt₁ hk₀, hi2, hrk,
      heights_flat_length hashNoPad twoToOne]

/-- C2: for every accumulator built by insertions and every flat index that
addresses a leaf (a height-0 element in the source's bitmap arithmetic), that
index is the flat index of some inserted leaf, `get_proof` at it succeeds,
`bagging_the_peaks` produces a root, and `verify` of the proof against the
value inserted at that position and that root returns `true`. -/
theorem C2_completeness {F : Type} [DecidableEq F] [Zero F]
    (hashNoPad : List F → HashOut F) (twoToOne : HashOut F → HashOut F → HashOut F)
    (ls : List F) (i : Nat)
    (hi : i < (buildMMR hashNoPad twoToOne ls).elements.length)
    (h0 : (get_heights_bitmap_for_mmr_size i).2 = 0) :
    ∃ k, k < ls.length ∧ i = get_mmr_index k ∧
      ∃ (pr : MMR_proof F) (root : HashOut F),
        (buildMMR hashNoPad twoToOne ls).get_proof i = some pr ∧
        (buildMMR hashNoPad twoToOne ls).bagging_the_peaks hashNoPad = some root ∧
        pr.verify hashNoPad twoToOne (ls.getD k 0) root = some true := by
  obtain ⟨k, hk, hik⟩ := leaf_position_inverse hashNoPad twoToOne ls i hi h0
  refine ⟨k, hk, hik, ?_⟩
  rw [hik]
  exact mmr_completeness hashNoPad twoToOne ls k hk

theorem C2_witness :
    0 < (buildMMR natHashNoPad natTwoToOne [5]).elements.length ∧
    (get_heights_bitmap_for_mmr_size 0).2 = 0 ∧
    ∃ k, k < ([5] : List Nat).length ∧ 0 = get_mmr_index k ∧
      ∃ (pr : MMR_proof Nat) (root : HashOut Nat),
        (buildMMR natHashNoPad natTwoToOne [5]).get_proof 0 = some pr ∧
        (buildMMR natHashNoPad natTwoToOne [5]).bagging_the_peaks natHashNoPad =
          some root ∧
        pr.verify natHashNoPad natTwoToOne (([5] : List Nat).getD k 0) root =
          some true :=
  ⟨by simp [buildMMR, MMR.add_leaf, MMR.new], rfl,
    C2_completeness natHashNoPad natTwoToOne [5] 0
      (by simp [buildMMR, MMR.add_leaf, MMR.new]) rfl⟩

/-- C3: root stability. Growing the accumulator only appends to `elements`
(the old element list is a prefix of the new one), and the proof and root
recorded at the smaller size still verify, since `verify` reads only the
recorded proof object and root. -/
theorem C3_root_stability {F : Type} [DecidableEq F] [Zero F]
    (hashNoPad : List F → HashOut F) (twoToOne : HashOut F → HashOut F → HashOut F)
    (ls more : List F) (k : Nat) (hk : k < ls.length) :
    (∃ t, (buildMMR hashNoPad twoToOne (ls ++ more)).elements =
        (buildMMR hashNoPad twoToOne ls).elements ++ t) ∧
    ∀ (pr : MMR_proof F) (root : HashOut F),
      (buildMMR hashNoPad twoToOne ls).get_proof (get_mmr_index k) = some pr →
      (buildMMR hashNoPad twoToOne ls).bagging_the_peaks hashNoPad = some root →
      pr.verify hashNoPad twoToOne (ls.getD k 0) root = some true := by
  refine ⟨buildMMR_grow hashNoPad twoToOne ls more, ?_⟩
  intro pr root hpr hroot
  obtain ⟨pr0, root0, hpr0, hroot0, hv0⟩ := mmr_completeness hashNoPad twoToOne ls k hk
  rw [hpr0] at hpr
  rw [hroot0] at hroot
  injection hpr with hpr'
  injection hroot with hroot'
  subst hpr'
  subst hroot'
  exact hv0

theorem C3_witness :
    1 < ([5, 6] : List Nat).length ∧
    ((∃ t, (buildMMR natHashNoPad natTwoToOne ([5, 6] ++ [7])).elements =
        (buildMMR natHashNoPad natTwoToOne [5, 6]).elements ++ t) ∧
      ∀ (pr : MMR_proof Nat) (root : HashOut Nat),
        (buildMMR natHashNoPad natTwoToOne [5, 6]).get_proof (get_mmr_index 1) =
          some pr →
        (buildMMR natHashNoPad natTwoToOne [5, 6]).bagging_the_peaks natHashNoPad =
          some root →
        pr.verify natHashNoPad natTwoToOne (([5, 6] : List Nat).getD 1 0) root =
          some true) :=
  ⟨by decide, C3_root_stability natHashNoPad natTwoToOne [5, 6] [7] 1 (by decide)⟩
